import Mathlib

/-!
Verification of the H-DAE detect → patch → gate → accept/waive pipeline.

This file gives a shallow embedding, in Lean 4, of the parts of the
repository that the checked properties are about:

* `tools/hdae/meta/gate_l1.py` — the L1 gate (`_compute_gate`,
  `_count_waivers`, the waiver-marker regex and the footprint filter);
* `tools/hdae/patch_cst.py` — the patcher's edit applier (`_apply_edits`)
  and the YAML-015 fixer (`fix_yaml`);
* `tools/hdae/cli.py` — the pack-registry validation (`_validate_tf` and
  the aggregation loop in `main`);
* `tools/hdae/agent_bridge.py` — the agent-ingestion pipeline
  (`ingest_diffs`, `_apply_patches_in`, `_accept_into_main`), with the
  version-control collaborator modelled as a capability interface, as the
  design documents describe it.

Python text is modelled as `List Char` (one entry per code point, exactly
as Python strings index and count code points).  Machine-level collaborators
(git apply, the external verifier) enter as explicit oracle parameters.
All definitions are executable, so every concrete statement below can be
settled by evaluation.
-/

namespace Hdae

/-! ## Text utilities shared by several components

These model the exact Python string primitives the code under scrutiny
relies on: `str.splitlines(keepends=True)`, `str.count`, `str.replace`,
and the substring test `in`.  Texts handled by the pipeline are ASCII;
the character classes below implement the ASCII fragment of Python's
semantics (and the full set of `splitlines` line boundaries).
-/

/-- The line-boundary characters recognised by Python `str.splitlines`. -/
def isLineBreak (c : Char) : Bool :=
  c = '\n' || c = '\r' || c = '\x0B' || c = '\x0C' ||
  c = '\x1C' || c = '\x1D' || c = '\x1E' || c = '\u0085' ||
  c = '\u2028' || c = '\u2029'

/-- Python `s.splitlines(keepends=True)`: split at line boundaries, keeping
the boundary characters; `"\r\n"` counts as a single boundary. -/
def splitlinesKeep : List Char → List (List Char)
  | [] => []
  | '\r' :: '\n' :: cs => ('\r' :: '\n' :: []) :: splitlinesKeep cs
  | c :: cs =>
    if isLineBreak c then [c] :: splitlinesKeep cs
    else
      match splitlinesKeep cs with
      | [] => [[c]]
      | l :: ls => (c :: l) :: ls

/-- Scanner for Python `hay.count(pat)` with a non-empty `pat`: walk the
text once; `skip` is the number of positions still covered by the last
match (matches are non-overlapping, left to right). -/
def countSubGo (pat : List Char) : List Char → Nat → Nat
  | [], _ => 0
  | _ :: t, Nat.succ k => countSubGo pat t k
  | c :: t, 0 =>
    if pat.isPrefixOf (c :: t) then 1 + countSubGo pat t (pat.length - 1)
    else countSubGo pat t 0

/-- Python `hay.count(pat)`: number of non-overlapping occurrences of `pat`
in `hay`, scanning left to right (`"".count("") = 1`, `s.count("") = len(s)+1`). -/
def countSub (hay pat : List Char) : Nat :=
  if pat = [] then hay.length + 1 else countSubGo pat hay 0

/-- Python `pat in hay`: substring containment (`"" in hay` is true). -/
def containsSub (hay pat : List Char) : Bool :=
  match hay with
  | [] => pat.isEmpty
  | _ :: t => pat.isPrefixOf hay || containsSub t pat

/-- Python `s.replace("", new)`: insert `new` before every character and
once at the end. -/
def pyReplaceEmpty (new : List Char) : List Char → List Char
  | [] => new
  | c :: t => new ++ c :: pyReplaceEmpty new t

/-- Scanner for Python `s.replace(old, new)` with a non-empty `old`:
walk the text once; `skip` positions are still covered by (and were
already emitted for) the last replaced occurrence. -/
def pyReplaceGo (old new : List Char) : List Char → Nat → List Char
  | [], _ => []
  | _ :: t, Nat.succ k => pyReplaceGo old new t k
  | c :: t, 0 =>
    if old.isPrefixOf (c :: t) then new ++ pyReplaceGo old new t (old.length - 1)
    else c :: pyReplaceGo old new t 0

/-- Python `s.replace(old, new)`: replace every non-overlapping occurrence
of `old` by `new`, scanning left to right. -/
def pyReplace (s old new : List Char) : List Char :=
  if old = [] then pyReplaceEmpty new s else pyReplaceGo old new s 0

/-! ## The L1 gate (`tools/hdae/meta/gate_l1.py`)

`_compute_gate` reads a JSONL findings stream, a changed-file list and a
per-PR waiver file, and computes the verdict object together with the
process exit code.  We model the pure computation on the already-read
inputs: the findings records (a missing findings file reads as `none`,
which `_jsonl_lines` turns into the empty list), the changed-file set
(modelled as a duplicate-free list), the gated pack-id set (likewise) and
the waiver-file text (`none` when the file is absent or unreadable).
-/

/-- One JSONL findings record, restricted to the fields `_compute_gate`
reads.  The findings-stream contract makes all of them strings; a missing
key is `none`. -/
structure ScanItem where
  tf_id : Option String := none
  pack : Option String := none
  file : Option String := none
  path : Option String := none
  filename : Option String := none
deriving DecidableEq

/-- Python `str(a or b or ... or "")` over optional strings: the first
present, non-empty entry, else `""`. -/
def firstTruthy : List (Option String) → String
  | [] => ""
  | none :: rest => firstTruthy rest
  | some s :: rest => if s = "" then firstTruthy rest else s

/-- `str(obj.get("tf_id") or obj.get("pack") or "")` (gate_l1.py line 135). -/
def effTfId (it : ScanItem) : String := firstTruthy [it.tf_id, it.pack]

/-- `str(obj.get("file") or obj.get("path") or obj.get("filename") or "")`
(gate_l1.py line 136). -/
def effFile (it : ScanItem) : String := firstTruthy [it.file, it.path, it.filename]

/-- The per-record filter of `_compute_gate` (gate_l1.py lines 134-143):
a record counts toward `l1_in_pr` unless one of the three `continue`
guards fires.  Note the third guard: with an **empty** changed set the
footprint test is skipped entirely. -/
def countsTowardL1 (gateIds changed : List String) (it : ScanItem) : Bool :=
  if effTfId it = "" || effFile it = "" then false
  else if ¬ effTfId it ∈ gateIds then false
  else if changed ≠ [] ∧ ¬ effFile it ∈ changed then false
  else true

/-- `l1_in_pr` as accumulated by the loop in `_compute_gate`. -/
def l1InPr (gateIds changed : List String) (items : List ScanItem) : Nat :=
  items.countP (countsTowardL1 gateIds changed)

/-- Python `\s` (ASCII fragment), used by the waiver marker regex. -/
def isPySpace (c : Char) : Bool :=
  c = ' ' || c = '\t' || c = '\n' || c = '\r' || c = '\x0B' || c = '\x0C'

/-- Python `\w` (ASCII fragment), used for the `\b` boundaries of the
waiver marker regex. -/
def isWordChar (c : Char) : Bool := c.isAlphanum || c = '_'

/-- Attempt to match the default waiver marker regex
`\btf_id\s*:\s*([A-Z]+-\d{3})\b` (gate_l1.py line 81) at the start of
`cs`, where `prev` is the character immediately before `cs` (if any).
On success, returns the captured group `[A-Z]+-\d{3}` and the total number
of characters the match consumed (always at least 5). -/
def tryMarker (prev : Option Char) (cs : List Char) : Option (String × Nat) :=
  if (match prev with | some c => isWordChar c | none => false) then none
  else
    match cs with
    | 't' :: 'f' :: '_' :: 'i' :: 'd' :: rest =>
      let sp1 := rest.span isPySpace
      match sp1.2 with
      | ':' :: r2 =>
        let sp2 := r2.span isPySpace
        let ups := sp2.2.span (fun c => 'A' ≤ c && c ≤ 'Z')
        if ups.1.isEmpty then none
        else
          match ups.2 with
          | '-' :: d1 :: d2 :: d3 :: r5 =>
            if d1.isDigit && d2.isDigit && d3.isDigit &&
               (match r5 with | [] => true | c :: _ => !isWordChar c) then
              some (⟨ups.1 ++ ['-', d1, d2, d3]⟩,
                    5 + sp1.1.length + 1 + sp2.1.length + ups.1.length + 4)
            else none
          | _ => none
      | _ => none
    | _ => none

/-- `re.findall` for the marker regex: scan left to right, collecting the
captured groups; `skip` positions are still covered by the last match
(matches are non-overlapping, and the scan resumes right after a match). -/
def scanMarkersGo : Option Char → List Char → Nat → List String
  | _, [], _ => []
  | _, c :: rest, Nat.succ k => scanMarkersGo (some c) rest k
  | prev, c :: rest, 0 =>
    match tryMarker prev (c :: rest) with
    | some (id, n) => id :: scanMarkersGo (some c) rest (n - 1)
    | none => scanMarkersGo (some c) rest 0

/-- All waiver markers of a waiver text (`re.findall(regex, text)` with the
default `waiver_tf_regex` of `_count_waivers`). -/
def findMarkers (text : List Char) : List String := scanMarkersGo none text 0

/-- `_count_waivers` (gate_l1.py lines 79-104), given the waiver file's text
(`none` models "file absent or unreadable", which returns 0): count the
regex markers whose id is gated; if none, fall back to direct substring
occurrences of the gated ids; if still none, the existing file counts as
one blanket waiver. -/
def countWaivers (gateIds : List String) (waiver : Option String) : Nat :=
  match waiver with
  | none => 0
  | some text =>
    let count := (findMarkers text.data).countP (fun m => decide (m ∈ gateIds))
    if count ≠ 0 then count
    else
      let direct := (gateIds.map (fun gid => countSub text.data gid.data)).sum
      if direct ≠ 0 then direct else 1

/-- The verdict object printed by the gate, plus the process exit code. -/
structure GateResult where
  total_all : Nat
  l1_in_pr : Nat
  waivers : Nat
  remaining_l1 : Nat
  changed_files : Nat
  exitCode : Nat
deriving DecidableEq

/-- `_compute_gate` (gate_l1.py lines 107-155) on its already-read inputs.
`scanFile = none` models an absent findings source file (`_jsonl_lines`
returns the empty list for it); `waiver = none` models an absent waiver
file.  `remaining_l1 = max(l1_in_pr - waivers, 0)` is computed over the
integers, as in Python; the exit code is 1 iff some remaining L1 finding
is unwaived. -/
def computeGate (gateIds changed : List String) (scanFile : Option (List ScanItem))
    (waiver : Option String) : GateResult :=
  let items := scanFile.getD []
  let l1 := l1InPr gateIds changed items
  let w := countWaivers gateIds waiver
  let remaining := (max ((l1 : Int) - (w : Int)) 0).toNat
  { total_all := items.length
    l1_in_pr := l1
    waivers := w
    remaining_l1 := remaining
    changed_files := changed.length
    exitCode := if remaining > 0 then 1 else 0 }

/-- The waiver-count cascade exactly as the specification words it
(spec §4.4): (a) gated regex markers; if zero **and the text is non-empty**,
(b) direct substring occurrences of the gated ids; if that too is zero but
the file exists, (c) exactly one blanket waiver.  Used to compare
`_count_waivers` against the specification. -/
def specWaiverCount (gateIds : List String) (waiver : Option String) : Nat :=
  match waiver with
  | none => 0
  | some text =>
    let a := (findMarkers text.data).countP (fun m => decide (m ∈ gateIds))
    if a ≠ 0 then a
    else
      let direct := (gateIds.map (fun gid => countSub text.data gid.data)).sum
      if text ≠ "" ∧ direct ≠ 0 then direct
      else 1

/-! ## The patcher's edit applier (`tools/hdae/patch_cst.py`, `_apply_edits`)

`_apply_edits` computes, once, the line decomposition of the *original*
source, sorts the edits by `(start_line, start_col, end_line, end_col)` in
reverse (Python's sort is stable, so equal keys keep their input order),
and then splices each replacement into the evolving text at the offsets
computed against the original line table.
-/

/-- The patcher's edit primitive (patch_cst.py lines 40-44): a
`(line, col)`-addressed half-open region plus replacement text (`stop`
models the source's `end` field; lines are 1-based). -/
structure Edit where
  start : Nat × Nat
  stop : Nat × Nat
  repl : List Char
deriving DecidableEq

/-- The Python sort key `(start[0], start[1], end[0], end[1])`. -/
def editKey (e : Edit) : Nat × Nat × Nat × Nat :=
  (e.start.1, e.start.2, e.stop.1, e.stop.2)

/-- Lexicographic comparison of sort keys. -/
def key4LE (a b : Nat × Nat × Nat × Nat) : Bool :=
  if a.1 < b.1 then true else if b.1 < a.1 then false
  else if a.2.1 < b.2.1 then true else if b.2.1 < a.2.1 then false
  else if a.2.2.1 < b.2.2.1 then true else if b.2.2.1 < a.2.2.1 then false
  else decide (a.2.2.2 ≤ b.2.2.2)

/-- Insert an edit into a descending-sorted list, after every element
whose key is at least its own (so that elements with equal keys keep
their arrival order). -/
def insertDesc (e : Edit) : List Edit → List Edit
  | [] => [e]
  | x :: xs =>
    if key4LE (editKey e) (editKey x) then x :: insertDesc e xs
    else e :: x :: xs

/-- `sorted(edits, key=..., reverse=True)`: the stable descending sort by
`editKey`.  Python's sort is stable and a stable sort is extensionally
unique, so insertion sort (inserting each arriving element after all
elements with a key at least its own) computes exactly Python's result:
ties keep their input order. -/
def sortDesc (edits : List Edit) : List Edit :=
  edits.foldl (fun acc e => insertDesc e acc) []

/-- `to_offset` (patch_cst.py lines 51-52): character offset of a
1-based `(line, col)` position against a fixed line table. -/
def toOffset (lines : List (List Char)) (line col : Nat) : Nat :=
  ((lines.take (line - 1)).map List.length).sum + col

/-- `_apply_edits` (patch_cst.py lines 47-58): sort descending, then fold
the splices over the evolving text, with offsets always computed from the
original source's line table.  Python's out-of-range slices clamp exactly
like `List.take`/`List.drop`. -/
def applyEdits (src : List Char) (edits : List Edit) : List Char :=
  if edits.isEmpty then src
  else
    let lines := splitlinesKeep src
    (sortDesc edits).foldl (fun flat e =>
      flat.take (toOffset lines e.start.1 e.start.2) ++ e.repl ++
        flat.drop (toOffset lines e.stop.1 e.stop.2)) src

/-- An edit reduced to original-document offsets: `(start, stop, repl)`. -/
abbrev OffEdit := Nat × Nat × List Char

/-- One splice step of the `_apply_edits` fold, at offset level. -/
def spliceOne (flat : List Char) (e : OffEdit) : List Char :=
  flat.take e.1 ++ e.2.2 ++ flat.drop e.2.1

/-- The `_apply_edits` fold at offset level. -/
def oapplyDesc (flat : List Char) (es : List OffEdit) : List Char :=
  es.foldl spliceOne flat

/-- Offsets of an edit against a line table. -/
def offsetsOf (lines : List (List Char)) (e : Edit) : OffEdit :=
  (toOffset lines e.start.1 e.start.2, toOffset lines e.stop.1 e.stop.2, e.repl)

/-- Specification-side simultaneous splice: for a list of offset edits in
descending document order, replace each half-open region of the *original*
document by its replacement.  (The recursive call works inside the prefix
`src.take s`, where all remaining, earlier, edits lie; their original
offsets are unchanged there.) -/
def spliceDesc (src : List Char) : List OffEdit → List Char
  | [] => src
  | (s, t, r) :: es => spliceDesc (src.take s) es ++ r ++ src.drop t

/-- Well-formedness of a descending offset-edit list against an upper
bound: every region is ordered (`s ≤ t`), ends below the bound, and the
remaining edits lie at or before its start. -/
def DescOk : Nat → List OffEdit → Prop
  | _, [] => True
  | bound, (s, t, _) :: es => s ≤ t ∧ t ≤ bound ∧ DescOk s es

/-- A `(line, col)` position is valid for a line table: the line exists
(1-based) and the column does not pass the end of that line. -/
def validPos (lines : List (List Char)) (p : Nat × Nat) : Prop :=
  1 ≤ p.1 ∧ p.1 ≤ lines.length ∧ p.2 ≤ (lines.getD (p.1 - 1) []).length

instance (lines : List (List Char)) (p : Nat × Nat) : Decidable (validPos lines p) := by
  unfold validPos; infer_instance

/-- Lexicographic order on `(line, col)` positions. -/
def posLE (p q : Nat × Nat) : Prop := p.1 < q.1 ∨ (p.1 = q.1 ∧ p.2 ≤ q.2)

instance (p q : Nat × Nat) : Decidable (posLE p q) := by
  unfold posLE; infer_instance

/-! ## The YAML-015 fixer (`tools/hdae/patch_cst.py`, `fix_yaml`)

The one purely textual fixer: substitute the unsafe call name by its safe
counterpart, guarded by the textual idempotence check "the safe name is
not already present".
-/

/-- The unsafe call name `"yaml.load("`. -/
def yamlLoadPat : List Char := "yaml.load(".data

/-- The safe call name `"yaml.safe_load("`. -/
def yamlSafePat : List Char := "yaml.safe_load(".data

/-- `fix_yaml` (patch_cst.py lines 457-461).  The second component records
whether a unified diff is emitted (`out != src`). -/
def fix_yaml (src : List Char) : List Char × Bool :=
  let out :=
    if containsSub src yamlLoadPat && !containsSub src yamlSafePat then
      pyReplace src yamlLoadPat yamlSafePat
    else src
  (out, !(out == src))

/-! ## Pack-registry validation (`tools/hdae/cli.py`)

`_load_yaml_minimal` produces one value universe: strings, lists of
scalar strings, and one-level object mappings whose values are strings,
scalar lists or the empty object.  `_validate_tf` walks one such record;
`main` validates every record and aggregates the failures (exit code 2).
-/

/-- A value nested inside a top-level object mapping, as produced by the
minimal YAML loader: a scalar string, a list of scalar strings, or `{}`. -/
inductive YLeaf where
  | str (s : String)
  | list (xs : List String)
  | emptyObj
deriving DecidableEq

/-- A top-level value of a loaded TF record. -/
inductive YVal where
  | str (s : String)
  | list (xs : List String)
  | obj (fields : List (String × YLeaf))
deriving DecidableEq

/-- A loaded TF record, restricted to the keys `_validate_tf` reads
(`none` = key absent; Python dict keys are unique, so a record is a
partial map).  `secE`/`secO`/`secL`/`secIo` are the source's `E`, `O`,
`L`, `IO` sections. -/
structure TfRecord where
  tf_id : Option YVal := none
  name : Option YVal := none
  meta : Option YVal := none
  secE : Option YVal := none
  secO : Option YVal := none
  secL : Option YVal := none
  secIo : Option YVal := none
  verify : Option YVal := none
  links : Option YVal := none
deriving DecidableEq

/-- `dict.get(k)` inside a section object (first binding wins; bindings
are unique in parser output). -/
def oget (fields : List (String × YLeaf)) (k : String) : Option YLeaf :=
  (fields.find? (fun p => p.1 = k)).map (·.2)

/-- `dict.get(k, default)` inside a section object. -/
def ogetD (fields : List (String × YLeaf)) (k : String) (d : YLeaf) : YLeaf :=
  (oget fields k).getD d

/-- `type(x).__name__` on the loader's value universe. -/
def typeName : YVal → String
  | .str _ => "str"
  | .list _ => "list"
  | .obj _ => "dict"

/-- `_must_be_str` on a top-level value. -/
def mustBeStr : YVal → Bool
  | .str _ => true
  | _ => false

/-- `_must_be_str` on a section value. -/
def leafIsStr : YLeaf → Bool
  | .str _ => true
  | _ => false

/-- `_must_be_list_of_str` on a section value (parser lists always hold
strings, so any list qualifies, as in the reachable Python states). -/
def leafListOk : YLeaf → Bool
  | .list _ => true
  | _ => false

/-- ASCII lower-casing of one character (`str.lower`, ASCII fragment). -/
def lowerChar (c : Char) : Char :=
  if 'A' ≤ c ∧ c ≤ 'Z' then Char.ofNat (c.toNat + 32) else c

/-- ASCII `str.lower`. -/
def lowerStr (s : String) : String := ⟨s.data.map lowerChar⟩

/-- `_must_be_bool(x)`: `str(x).lower() in ("true", "false")`.  The
renderings of lists and `{}` contain brackets and never qualify; the
loader never produces Python booleans. -/
def mustBeBoolOpt : Option YLeaf → Bool
  | some (.str s) => lowerStr s = "true" || lowerStr s = "false"
  | _ => false

/-- Characters stripped by Python `float(str)` around the number. -/
def isPyStrip (c : Char) : Bool :=
  c = ' ' || c = '\t' || c = '\n' || c = '\r' || c = '\x0B' || c = '\x0C'

/-- Consume the continuation of a digit run, allowing single underscores
strictly between digits (PEP 515); returns the unconsumed rest. -/
def eatMore : List Char → List Char
  | [] => []
  | [c] => if c.isDigit then [] else [c]
  | c :: d :: rest =>
    if c.isDigit then eatMore (d :: rest)
    else if c = '_' ∧ d.isDigit then eatMore rest
    else c :: d :: rest

/-- Consume a nonempty digit run (with PEP 515 underscores); `none` if the
input does not start with a digit. -/
def eatDigits : List Char → Option (List Char)
  | [] => none
  | c :: rest => if c.isDigit then some (eatMore rest) else none

/-- Is `l` exactly one digit run? -/
def digitsAll (l : List Char) : Bool :=
  match eatDigits l with
  | some [] => true
  | _ => false

/-- An exponent part `(e|E)[+-]?digits` consuming all of the input. -/
def parseExp : List Char → Bool
  | [] => false
  | c :: rest =>
    (c = 'e' || c = 'E') &&
    (match rest with
     | s :: rest2 => if s = '+' || s = '-' then digitsAll rest2 else digitsAll rest
     | [] => false)

/-- The unsigned body of a Python float literal: `inf`, `infinity`, `nan`
(case-insensitive), or a decimal form `digits [. digits?] [exp]` /
`. digits [exp]`. -/
def parseUnsigned (s : List Char) : Bool :=
  (s.map Char.toLower = "inf".data || s.map Char.toLower = "infinity".data ||
   s.map Char.toLower = "nan".data) ||
  (match eatDigits s with
   | some rest =>
     rest = [] ||
     (match rest with
      | '.' :: rest2 =>
        (match eatDigits rest2 with
         | some rest3 => rest3 = [] || parseExp rest3
         | none => rest2 = [] || parseExp rest2)
      | _ => parseExp rest)
   | none =>
     match s with
     | '.' :: rest2 =>
       (match eatDigits rest2 with
        | some rest3 => rest3 = [] || parseExp rest3
        | none => false)
     | _ => false)

/-- Does Python `float(s)` succeed?  (Optional surrounding whitespace,
optional sign, then an unsigned float body.) -/
def pyFloatParseable (s : String) : Bool :=
  let t := ((s.data.dropWhile isPyStrip).reverse.dropWhile isPyStrip).reverse
  let body :=
    match t with
    | c :: rest => if c = '+' || c = '-' then rest else t
    | [] => []
  (t ≠ []) && parseUnsigned body

/-- `float(str(conf))` succeeds: only a scalar string can qualify
(`str(None)`, list and `{}` renderings never parse as floats). -/
def floatOkLeaf : Option YLeaf → Bool
  | some (.str s) => pyFloatParseable s
  | _ => false

/-- `sev not in ("low", "medium", "high")`, negated. -/
def sevOk : Option YLeaf → Bool
  | some (.str s) => s = "low" || s = "medium" || s = "high"
  | _ => false

/-- The required-field phase of `_validate_tf` (cli.py lines 140-142), in
source order. -/
def requiredMissing (tf : TfRecord) : List String :=
  (if tf.tf_id.isNone then ["missing field: tf_id"] else []) ++
  (if tf.name.isNone then ["missing field: name"] else []) ++
  (if tf.meta.isNone then ["missing field: meta"] else []) ++
  (if tf.secE.isNone then ["missing field: E"] else []) ++
  (if tf.secO.isNone then ["missing field: O"] else []) ++
  (if tf.secL.isNone then ["missing field: L"] else []) ++
  (if tf.secIo.isNone then ["missing field: IO"] else []) ++
  (if tf.verify.isNone then ["missing field: verify"] else []) ++
  (if tf.links.isNone then ["missing field: links"] else [])

/-- The `meta` block of `_validate_tf` (cli.py lines 151-165). -/
def checkMeta : YVal → List String
  | .obj m =>
    (if (oget m "severity").isNone then ["meta.severity required"] else []) ++
    (if (oget m "auto").isNone then ["meta.auto required"] else []) ++
    (if (oget m "detect").isNone then ["meta.detect required"] else []) ++
    (if sevOk (oget m "severity") then [] else ["meta.severity must be one of low|medium|high"]) ++
    (if mustBeBoolOpt (oget m "auto") then [] else ["meta.auto must be boolean"]) ++
    (if mustBeBoolOpt (oget m "detect") then [] else ["meta.detect must be boolean"])
  | _ => ["meta must be object"]

/-- The `E` block of `_validate_tf` (cli.py lines 167-181). -/
def checkE : YVal → List String
  | .obj e =>
    (if leafListOk (ogetD e "detect_signals" (.list [])) then []
     else ["E.detect_signals must be list[string]"]) ++
    (if leafListOk (ogetD e "hints" (.list [])) then []
     else ["E.hints must be list[string]"]) ++
    (if floatOkLeaf (oget e "confidence") then []
     else ["E.confidence must be number"])
  | _ => ["E must be object"]

/-- The `O` block of `_validate_tf` (cli.py lines 183-193). -/
def checkO : YVal → List String
  | .obj o =>
    (if leafListOk (ogetD o "entities" (.list [])) then []
     else ["O.entities must be list[string]"]) ++
    (if leafListOk (ogetD o "relations" (.list [])) then []
     else ["O.relations must be list[string]"]) ++
    (if leafIsStr (ogetD o "scope" (.str "")) then []
     else ["O.scope must be string"])
  | _ => ["O must be object"]

/-- The `L` block of `_validate_tf` (cli.py lines 195-205). -/
def checkL : YVal → List String
  | .obj l =>
    (if leafListOk (ogetD l "constraints" (.list [])) then []
     else ["L.constraints must be list[string]"]) ++
    (if leafListOk (ogetD l "transforms" (.list [])) then []
     else ["L.transforms must be list[string]"]) ++
    (if leafIsStr (ogetD l "decision_rule" (.str "")) then []
     else ["L.decision_rule must be string"])
  | _ => ["L must be object"]

/-- The `IO` block of `_validate_tf` (cli.py lines 207-215). -/
def checkIo : YVal → List String
  | .obj i =>
    (if leafListOk (ogetD i "input" (.list [])) then []
     else ["IO.input must be list[string]"]) ++
    (if leafListOk (ogetD i "output" (.list [])) then []
     else ["IO.output must be list[string]"])
  | _ => ["IO must be object"]

/-- The `verify` block of `_validate_tf` (cli.py lines 217-223). -/
def checkVerify : YVal → List String
  | .obj v =>
    (if leafListOk (ogetD v "checks" (.list [])) then []
     else ["verify.checks must be list[string]"])
  | _ => ["verify must be object"]

/-- The `links` block of `_validate_tf` (cli.py lines 225-231). -/
def checkLinks : YVal → List String
  | .obj l =>
    (if leafListOk (ogetD l "related" (.list [])) then []
     else ["links.related must be list[string]"])
  | _ => ["links must be object"]

/-- `_validate_tf` (cli.py lines 137-233).  If any required field is
missing, *only* the missing-field errors are returned (the early
`if errors: return errors`); otherwise all per-field checks run and their
errors are concatenated in source order.  In the second phase every field
is present, so the `getD` defaults below are never consulted (they mirror
Python's `tf.get(k, {})` defaults). -/
def validateTf (tf : TfRecord) : List String :=
  let missing := requiredMissing tf
  if missing ≠ [] then missing
  else
    (if mustBeStr (tf.tf_id.getD (.obj [])) then []
     else ["tf_id must be string (got " ++ typeName (tf.tf_id.getD (.obj [])) ++ ")"]) ++
    (if mustBeStr (tf.name.getD (.obj [])) then []
     else ["name must be string (got " ++ typeName (tf.name.getD (.obj [])) ++ ")"]) ++
    checkMeta (tf.meta.getD (.obj [])) ++
    checkE (tf.secE.getD (.obj [])) ++
    checkO (tf.secO.getD (.obj [])) ++
    checkL (tf.secL.getD (.obj [])) ++
    checkIo (tf.secIo.getD (.obj [])) ++
    checkVerify (tf.verify.getD (.obj [])) ++
    checkLinks (tf.links.getD (.obj []))

/-- The registry-validation loop of `main` (cli.py lines 263-268): every
record is validated; each failing record contributes one aggregated entry
`path + "\n  - " + errors joined by "\n  - "`. -/
def registryErrors : List (String × TfRecord) → List String
  | [] => []
  | (path, tf) :: rest =>
    (if validateTf tf = [] then []
     else [path ++ "\n  - " ++ String.intercalate "\n  - " (validateTf tf)]) ++
    registryErrors rest

/-- `main`'s registry gate (cli.py lines 269-272): exit code 2 when any
record failed validation, else the pipeline proceeds (0 here). -/
def registryExitCode (tfs : List (String × TfRecord)) : Nat :=
  if registryErrors tfs ≠ [] then 2 else 0

/-! ## The agent-ingestion pipeline (`tools/hdae/agent_bridge.py`)

`ingest_diffs` classifies the collected diff documents into new-file
contents and modification diffs (a deterministic function of the input
directory), materialises an isolated worktree holding the current tree
state, trial-applies the modification diffs there, runs the external
verifier, and then either merges into the real tree or waives.

The filesystem is a map from paths to file contents; git's
apply/check/reverse-check operations are the version-control capability
interface of the design (spec §6), modelled as an oracle record.  A
successful `git apply --check` is followed in the source by the real
`git apply`; both failures take the same `except` branch, so one oracle
covers the pair.
-/

/-- A file tree: path → content (absent / unreadable = `none`). -/
abbrev Tree := String → Option String

/-- The version-control collaborator, as a capability interface:
would `git apply --check` succeed, the result of `git apply`, and would
`git apply --reverse --check` succeed. -/
structure GitOps where
  checkOk : Tree → String → Bool
  applyDiff : Tree → String → Tree
  revCheckOk : Tree → String → Bool

/-- `_apply_patches_in` (agent_bridge.py lines 207-226): validate-check
then apply each diff in order inside the worktree; stop at the first
failure.  Returns the success flag and the final worktree state. -/
def applyPatchesIn (g : GitOps) (wt : Tree) : List String → Bool × Tree
  | [] => (true, wt)
  | d :: ds =>
    if g.checkOk wt d then applyPatchesIn g (g.applyDiff wt d) ds
    else (false, wt)

/-- Write one file into a tree. -/
def writeFileTree (t : Tree) (rel content : String) : Tree :=
  fun p => if p = rel then some content else t p

/-- Materialise the new-file contents (agent_bridge.py lines 293-296). -/
def writeAll (t : Tree) : List (String × String) → Tree
  | [] => t
  | (rel, c) :: rest => writeAll (writeFileTree t rel c) rest

/-- The new-file merge into the real tree (agent_bridge.py lines 318-329):
a file is written, and counted, only when its current content differs. -/
def writeNewMain (t : Tree) : List (String × String) → Nat × Tree
  | [] => (0, t)
  | (rel, c) :: rest =>
    if t rel = some c then writeNewMain t rest
    else
      let r := writeNewMain (writeFileTree t rel c) rest
      (r.1 + 1, r.2)

/-- `_accept_into_main` (agent_bridge.py lines 343-371): for each diff, a
reverse-apply probe; if it succeeds the diff is already present and is
skipped, otherwise the diff is applied and counted. -/
def acceptIntoMain (g : GitOps) (t : Tree) : List String → Nat × Tree
  | [] => (0, t)
  | d :: ds =>
    if g.revCheckOk t d then acceptIntoMain g t ds
    else
      let r := acceptIntoMain g (g.applyDiff t d) ds
      (r.1 + 1, r.2)

/-- The outcome of one `ingest_diffs` invocation: the returned summary,
the real tree afterwards, the reason of the waiver block appended (if
any), and whether the isolated worktree was removed. -/
structure IngestResult where
  accepted : Nat
  waived : Nat
  tree : Tree
  waiverReason : Option String
  worktreeRemoved : Bool

/-- `ingest_diffs` (agent_bridge.py lines 229-340) on its classified
inputs.  `main` is the real tree; the worktree starts as the current tree
state (HEAD plus the uncommitted overlay, lines 276-288) with the
new-file contents materialised on top; `verifyOk` is the external
validator collaborator.  Every exit path removes the worktree. -/
def ingestDiffs (g : GitOps) (verifyOk : Tree → Bool) (main : Tree)
    (newFiles : List (String × String)) (applyDiffs : List String) : IngestResult :=
  if newFiles = [] ∧ applyDiffs = [] then
    { accepted := 0, waived := 0, tree := main, waiverReason := none, worktreeRemoved := true }
  else if (applyPatchesIn g (writeAll main newFiles) applyDiffs).1 = false then
    { accepted := 0, waived := 1, tree := main,
      waiverReason := some "patch apply failed in worktree", worktreeRemoved := true }
  else if verifyOk (applyPatchesIn g (writeAll main newFiles) applyDiffs).2 then
    { accepted := (writeNewMain main newFiles).1 +
        (acceptIntoMain g (writeNewMain main newFiles).2 applyDiffs).1
      waived := 0
      tree := (acceptIntoMain g (writeNewMain main newFiles).2 applyDiffs).2
      waiverReason := none
      worktreeRemoved := true }
  else
    { accepted := 0, waived := 1, tree := main,
      waiverReason := some "verify failed", worktreeRemoved := true }

/-! ## Concrete fixtures used by the example-level statements below -/

/-- A findings record `{"tf_id": "BEX-001", "file": "a.py"}`. -/
def itemA : ScanItem := { tf_id := some "BEX-001", file := some "a.py" }

/-- The four findings records of the specification's gate-arithmetic
example. -/
def gateExampleItems : List ScanItem :=
  [{ tf_id := some "BEX-001", file := some "a.py" },
   { tf_id := some "SIL-002", file := some "b.py" },
   { tf_id := some "BEX-001", file := some "c.py" },
   { tf_id := some "MDA-003", file := some "d.py" }]

/-- A waiver text carrying two `BEX-001` markers and one `SIL-002`
marker in the recognised `tf_id: <ID>` form. -/
def gateExampleWaiver : String := "tf_id: BEX-001\ntf_id: BEX-001\ntf_id: SIL-002\n"

/-- A TF record with every required field present, a valid severity and a
valid confidence, whose `meta.auto` is not boolean. -/
def tfAutoBad : TfRecord :=
  { tf_id := some (.str "BEX-001")
    name := some (.str "broad except")
    meta := some (.obj [("severity", YLeaf.str "low"), ("auto", YLeaf.str "maybe"),
                        ("detect", YLeaf.str "true")])
    secE := some (.obj [("confidence", YLeaf.str "0.9")])
    secO := some (.obj [])
    secL := some (.obj [])
    secIo := some (.obj [])
    verify := some (.obj [])
    links := some (.obj []) }

/-- A TF record with every required field absent. -/
def tfMissing : TfRecord := {}

/-- A zero-width edit at line 1, column 2, inserting `X`. -/
def tieEditX : Edit := { start := (1, 2), stop := (1, 2), repl := "X".data }

/-- A zero-width edit at line 1, column 2, inserting `Y`. -/
def tieEditY : Edit := { start := (1, 2), stop := (1, 2), repl := "Y".data }

/-- An edit replacing line 1, columns 0-2, by `XY`. -/
def wEdit1 : Edit := { start := (1, 0), stop := (1, 2), repl := "XY".data }

/-- An edit inserting `Z` at line 2, column 1. -/
def wEdit2 : Edit := { start := (2, 1), stop := (2, 1), repl := "Z".data }

/-- A source file with an unsafe `yaml.load` call carrying a `Loader=`
keyword argument. -/
def yamlLoaderSrc : List Char :=
  "import yaml\nd = yaml.load(s, Loader=yaml.FullLoader)\n".data

/-- The empty file tree. -/
def emptyTree : Tree := fun _ => none

/-- A git oracle whose validate-check always fails. -/
def gAlwaysFail : GitOps :=
  { checkOk := fun _ _ => false, applyDiff := fun t _ => t, revCheckOk := fun _ _ => false }

/-- A git oracle for which every apply check succeeds, application is the
identity, and every reverse probe succeeds. -/
def gAllOk : GitOps :=
  { checkOk := fun _ _ => true, applyDiff := fun t _ => t, revCheckOk := fun _ _ => true }

/-- The always-passing external verifier. -/
def verifyTrue : Tree → Bool := fun _ => true

/-! # Theorems

First some small facts about the text utilities, then the claims.
-/

theorem countSub_nil (pat : List Char) : countSub [] pat = if pat = [] then 1 else 0 := by
  unfold countSub
  split <;> rfl

theorem string_data_eq_nil {g : String} : g.data = [] ↔ g = "" := by
  constructor
  · intro h
    exact String.ext (h.trans rfl)
  · intro h
    subst h
    rfl

theorem sum_countSub_empty (l : List String) (h : l.Nodup) :
    (l.map fun gid => countSub [] gid.data).sum = if "" ∈ l then 1 else 0 := by
  have hfun : ∀ g : String, countSub [] g.data = if g = "" then 1 else 0 := by
    intro g
    rw [countSub_nil]
    by_cases hg : g = ""
    · subst hg
      rfl
    · rw [if_neg (fun hh => hg (string_data_eq_nil.mp hh)), if_neg hg]
  induction l with
  | nil => simp
  | cons g t ih =>
    rw [List.nodup_cons] at h
    obtain ⟨hg, ht⟩ := h
    rw [List.map_cons, List.sum_cons, ih ht, hfun g]
    by_cases hgE : g = ""
    · subst hgE
      simp [hg, List.mem_cons]
    · simp [hgE, List.mem_cons, eq_comm]

/-- C2: for every findings list, footprint, gated-id set and waiver text,
the gate computes `remaining_l1 = max(l1_in_pr - waivers, 0)` and exits
with code 1 iff `remaining_l1 > 0` (0 otherwise); and on the
specification's worked example (four scan records, footprint
`{a.py, b.py, c.py}`, gated ids `{BEX-001, SIL-002}`, two `BEX-001`
markers and one `SIL-002` marker in the waiver text) it computes
`l1_in_pr = 3`, `waivers = 3`, `remaining_l1 = 0` and exit code 0. -/
theorem gate_arithmetic_and_example :
    (∀ (gateIds changed : List String) (scanFile : Option (List ScanItem))
        (waiver : Option String),
      (computeGate gateIds changed scanFile waiver).remaining_l1 =
        (max (((computeGate gateIds changed scanFile waiver).l1_in_pr : Int) -
              ((computeGate gateIds changed scanFile waiver).waivers : Int)) 0).toNat ∧
      ((computeGate gateIds changed scanFile waiver).exitCode = 1 ↔
        0 < (computeGate gateIds changed scanFile waiver).remaining_l1) ∧
      ((computeGate gateIds changed scanFile waiver).exitCode = 0 ↔
        (computeGate gateIds changed scanFile waiver).remaining_l1 = 0)) ∧
    computeGate ["BEX-001", "SIL-002"] ["a.py", "b.py", "c.py"] (some gateExampleItems)
        (some gateExampleWaiver) =
      { total_all := 4, l1_in_pr := 3, waivers := 3, remaining_l1 := 0,
        changed_files := 3, exitCode := 0 } := by
  constructor
  · intro gateIds changed scanFile waiver
    unfold computeGate
    refine ⟨rfl, ?_, ?_⟩ <;> (dsimp only; split <;> omega)
  · decide

/-- C5 counterexample: with the **empty** footprint, a gated finding whose
file is in no footprint at all still counts toward `l1_in_pr` (the code
skips the footprint test when the changed set is empty), so a finding
outside the footprint can contribute. -/
theorem footprint_empty_counted_cx :
    (computeGate ["BEX-001"] [] (some [itemA]) none).l1_in_pr = 1 ∧
    effFile itemA ∉ ([] : List String) := by
  exact ⟨by decide, by simp⟩

/-- C5 amended: for every **non-empty** footprint, a finding whose file is
not in the footprint never contributes to `l1_in_pr` (removing it from the
stream leaves the count unchanged), and a finding counts exactly when its
pack id and file are non-empty, its pack is gated and its file is in the
footprint. -/
theorem footprint_exclusion_nonempty (gateIds changed : List String) (hch : changed ≠ [])
    (pre post : List ScanItem) (it : ScanItem) (hf : effFile it ∉ changed)
    (waiver : Option String) :
    (computeGate gateIds changed (some (pre ++ it :: post)) waiver).l1_in_pr =
      (computeGate gateIds changed (some (pre ++ post)) waiver).l1_in_pr ∧
    ∀ jt : ScanItem, countsTowardL1 gateIds changed jt = true ↔
      (effTfId jt ≠ "" ∧ effFile jt ≠ "" ∧ effTfId jt ∈ gateIds ∧ effFile jt ∈ changed) := by
  have hchar : ∀ jt : ScanItem, countsTowardL1 gateIds changed jt = true ↔
      (effTfId jt ≠ "" ∧ effFile jt ≠ "" ∧ effTfId jt ∈ gateIds ∧ effFile jt ∈ changed) := by
    intro jt
    by_cases hA : effTfId jt = ""
    · simp [countsTowardL1, hA]
    · by_cases hB : effFile jt = ""
      · simp [countsTowardL1, hA, hB]
      · by_cases hC : effTfId jt ∈ gateIds
        · by_cases hD : effFile jt ∈ changed
          · simp [countsTowardL1, hA, hB, hC, hD]
          · simp [countsTowardL1, hA, hB, hC, hD, hch]
        · simp [countsTowardL1, hA, hB, hC]
  refine ⟨?_, hchar⟩
  have hzero : countsTowardL1 gateIds changed it = false := by
    rcases Bool.eq_false_or_eq_true (countsTowardL1 gateIds changed it) with h | h
    · exact absurd ((hchar it).mp h).2.2.2 hf
    · exact h
  unfold computeGate l1InPr
  dsimp only [Option.getD]
  rw [List.countP_append, List.countP_cons, List.countP_append, hzero]
  simp

/-- A closed instance of `footprint_exclusion_nonempty` at a concrete
footprint, finding stream and excluded finding. -/
theorem footprint_exclusion_nonempty_witness :
    (["a.py"] : List String) ≠ [] ∧
    effFile { tf_id := some "BEX-001", file := some "z.py" } ∉ (["a.py"] : List String) ∧
    (computeGate ["BEX-001"] ["a.py"]
        (some ([itemA] ++ { tf_id := some "BEX-001", file := some "z.py" } :: [])) none).l1_in_pr =
      (computeGate ["BEX-001"] ["a.py"] (some ([itemA] ++ [])) none).l1_in_pr :=
  ⟨by simp, by decide,
    (footprint_exclusion_nonempty ["BEX-001"] ["a.py"] (by simp) [itemA] []
      { tf_id := some "BEX-001", file := some "z.py" } (by decide) none).1⟩

/-- C6: the waiver count follows the documented cascade exactly: (a) the
number of recognised markers carrying a gated id; if zero and the text is
non-empty, (b) the total of direct substring occurrences of the gated ids;
if that too is zero while the file exists, (c) exactly one blanket waiver
(and 0 when the waiver file is absent).  The gated-id set is
duplicate-free, being a Python set. -/
theorem count_waivers_cascade (gateIds : List String) (hnd : gateIds.Nodup)
    (waiver : Option String) :
    countWaivers gateIds waiver = specWaiverCount gateIds waiver := by
  cases waiver with
  | none => rfl
  | some text =>
    show (if (findMarkers text.data).countP (fun m => decide (m ∈ gateIds)) ≠ 0 then
            (findMarkers text.data).countP (fun m => decide (m ∈ gateIds))
          else if (gateIds.map fun gid => countSub text.data gid.data).sum ≠ 0 then
            (gateIds.map fun gid => countSub text.data gid.data).sum
          else 1) =
         (if (findMarkers text.data).countP (fun m => decide (m ∈ gateIds)) ≠ 0 then
            (findMarkers text.data).countP (fun m => decide (m ∈ gateIds))
          else if text ≠ "" ∧ (gateIds.map fun gid => countSub text.data gid.data).sum ≠ 0 then
            (gateIds.map fun gid => countSub text.data gid.data).sum
          else 1)
    by_cases ha : (findMarkers text.data).countP (fun m => decide (m ∈ gateIds)) ≠ 0
    · rw [if_pos ha, if_pos ha]
    · rw [if_neg ha, if_neg ha]
      by_cases ht : text = ""
      · subst ht
        rw [show ("" : String).data = ([] : List Char) from rfl,
          sum_countSub_empty gateIds hnd]
        by_cases hm : "" ∈ gateIds
        · rw [if_pos hm]
          norm_num
        · rw [if_neg hm]
          norm_num
      · by_cases hd2 : (gateIds.map fun gid => countSub text.data gid.data).sum ≠ 0
        · rw [if_pos hd2, if_pos ⟨ht, hd2⟩]
        · rw [if_neg hd2, if_neg (fun hc => hd2 hc.2)]

/-- A closed instance of `count_waivers_cascade`. -/
theorem count_waivers_cascade_witness :
    (["BEX-001", "SIL-002"] : List String).Nodup ∧
    countWaivers ["BEX-001", "SIL-002"] (some gateExampleWaiver) =
      specWaiverCount ["BEX-001", "SIL-002"] (some gateExampleWaiver) :=
  ⟨by decide, count_waivers_cascade ["BEX-001", "SIL-002"] (by decide) (some gateExampleWaiver)⟩

/-- C9 counterexample: with the findings source file absent, the verdict
is *not* all-zero for every waiver-file state and footprint: an existing
waiver file with no recognisable marker still counts as one waiver, and
`changed_files` reports the footprint size; only the finding counts are
zero (the verdict still passes). -/
theorem gate_missing_scan_cx :
    (computeGate ["BEX-001"] ["a.py"] none (some "")).waivers = 1 ∧
    (computeGate ["BEX-001"] ["a.py"] none (some "")).changed_files = 1 ∧
    (computeGate ["BEX-001"] ["a.py"] none (some "")).exitCode = 0 := by
  decide

/-- C9 amended: an absent findings source file is not an error: for every
waiver-file state and footprint it yields zero finding counts
(`total_all = l1_in_pr = remaining_l1 = 0`) and a passing verdict (exit
code 0); `waivers` and `changed_files` still reflect the waiver file and
the footprint. -/
theorem gate_missing_scan_passes (gateIds changed : List String) (waiver : Option String) :
    (computeGate gateIds changed none waiver).total_all = 0 ∧
    (computeGate gateIds changed none waiver).l1_in_pr = 0 ∧
    (computeGate gateIds changed none waiver).remaining_l1 = 0 ∧
    (computeGate gateIds changed none waiver).exitCode = 0 := by
  unfold computeGate l1InPr
  dsimp only [Option.getD]
  refine ⟨rfl, rfl, ?_, ?_⟩ <;> simp

theorem registryErrors_eq_nil (tfs : List (String × TfRecord)) :
    registryErrors tfs = [] ↔ ∀ pt ∈ tfs, validateTf pt.2 = [] := by
  induction tfs with
  | nil => simp [registryErrors]
  | cons pt rest ih =>
    obtain ⟨path, tf⟩ := pt
    by_cases h : validateTf tf = []
    · simp [registryErrors, h, ih]
    · constructor
      · intro hx
        rw [registryErrors, if_neg h] at hx
        exact absurd hx (by simp)
      · intro hall
        exact absurd (hall (path, tf) (List.mem_cons_self _ _)) h

theorem registryErrors_length (tfs : List (String × TfRecord)) :
    (registryErrors tfs).length = tfs.countP (fun pt => !(validateTf pt.2).isEmpty) := by
  induction tfs with
  | nil => rfl
  | cons pt rest ih =>
    obtain ⟨path, tf⟩ := pt
    rw [registryErrors, List.countP_cons]
    by_cases h : validateTf tf = []
    · rw [if_pos h]
      simp [ih, h]
    · rw [if_neg h]
      have hbe : (validateTf tf).isEmpty = false := by
        rw [← Bool.not_eq_true, List.isEmpty_iff]
        exact h
      simp [ih, hbe]

/-- C7 counterexample: a record with every required field present
(severity `"low"`, a numeric confidence) whose `meta.auto` holds the
non-boolean `"maybe"` makes registry loading fail (exit code 2), although
no required field is missing and its severity is inside
{low, medium, high} — so "fails exactly when some record is missing a
required field or has a severity outside the set" is false. -/
theorem registry_validation_cx :
    registryExitCode [("tools/hdae/tf/BEX-001.yaml", tfAutoBad)] = 2 ∧
    requiredMissing tfAutoBad = [] ∧
    validateTf tfAutoBad = ["meta.auto must be boolean"] := by
  refine ⟨?_, ?_, ?_⟩ <;> decide

/-- C7 amended: registry loading fails (exit code 2) exactly when some
record has a non-empty validation-error list — which also covers type
violations such as a non-boolean `meta.auto`, not only missing fields and
bad severities.  Every record is checked and each failing record
contributes one aggregated entry (never first-error-wins across records).
Within one record: when required fields are missing, only the
missing-field errors are reported (the remaining checks of that record
are skipped); when all required fields are present, the per-field checks
all run and their errors are reported together (severity and boolean
errors shown as representatives). -/
theorem registry_validation_aggregate :
    (∀ tfs : List (String × TfRecord),
      (registryExitCode tfs = 2 ↔ ∃ pt ∈ tfs, validateTf pt.2 ≠ []) ∧
      (registryErrors tfs).length = tfs.countP (fun pt => !(validateTf pt.2).isEmpty)) ∧
    (∀ tf : TfRecord, requiredMissing tf ≠ [] → validateTf tf = requiredMissing tf) ∧
    (∀ (tf : TfRecord) (m : List (String × YLeaf)), requiredMissing tf = [] →
      tf.meta = some (.obj m) →
      (sevOk (oget m "severity") = false →
        "meta.severity must be one of low|medium|high" ∈ validateTf tf) ∧
      (mustBeBoolOpt (oget m "auto") = false →
        "meta.auto must be boolean" ∈ validateTf tf)) := by
  refine ⟨?_, ?_, ?_⟩
  · intro tfs
    constructor
    · constructor
      · intro h2
        by_contra hno
        push_neg at hno
        have hnil : registryErrors tfs = [] := (registryErrors_eq_nil tfs).mpr hno
        unfold registryExitCode at h2
        rw [if_neg (not_not_intro hnil)] at h2
        exact absurd h2 (by norm_num)
      · rintro ⟨pt, hpt, hne⟩
        have hq : registryErrors tfs ≠ [] :=
          fun hnil => hne ((registryErrors_eq_nil tfs).mp hnil pt hpt)
        unfold registryExitCode
        rw [if_pos hq]
    · exact registryErrors_length tfs
  · intro tf h
    unfold validateTf
    dsimp only
    rw [if_pos h]
  · intro tf m hreq hmeta
    have hval : validateTf tf =
        (if mustBeStr (tf.tf_id.getD (.obj [])) then []
         else ["tf_id must be string (got " ++ typeName (tf.tf_id.getD (.obj [])) ++ ")"]) ++
        (if mustBeStr (tf.name.getD (.obj [])) then []
         else ["name must be string (got " ++ typeName (tf.name.getD (.obj [])) ++ ")"]) ++
        checkMeta (YVal.obj m) ++
        checkE (tf.secE.getD (.obj [])) ++
        checkO (tf.secO.getD (.obj [])) ++
        checkL (tf.secL.getD (.obj [])) ++
        checkIo (tf.secIo.getD (.obj [])) ++
        checkVerify (tf.verify.getD (.obj [])) ++
        checkLinks (tf.links.getD (.obj [])) := by
      unfold validateTf
      dsimp only
      rw [if_neg (not_not_intro hreq), hmeta]
      rfl
    constructor
    · intro hsev
      rw [hval]
      have hm : "meta.severity must be one of low|medium|high" ∈ checkMeta (YVal.obj m) := by
        simp [checkMeta, hsev]
      simp only [List.mem_append]
      tauto
    · intro hauto
      rw [hval]
      have hm : "meta.auto must be boolean" ∈ checkMeta (YVal.obj m) := by
        simp [checkMeta, hauto]
      simp only [List.mem_append]
      tauto

/-- A closed instance of `registry_validation_aggregate`: the all-fields-
missing record reports exactly its nine missing-field errors. -/
theorem registry_validation_aggregate_witness :
    requiredMissing tfMissing ≠ [] ∧ validateTf tfMissing = requiredMissing tfMissing :=
  ⟨by decide, registry_validation_aggregate.2.1 tfMissing (by decide)⟩

theorem writeNewMain_preserves (nf : List (String × String)) (t : Tree) (p : String)
    (hp : ∀ rc ∈ nf, rc.1 ≠ p) : (writeNewMain t nf).2 p = t p := by
  induction nf generalizing t with
  | nil => rfl
  | cons rc rest ih =>
    obtain ⟨rel, c⟩ := rc
    by_cases h : t rel = some c
    · rw [writeNewMain, if_pos h]
      exact ih t (fun x hx => hp x (List.mem_cons_of_mem _ hx))
    · rw [writeNewMain, if_neg h]
      dsimp only
      rw [ih _ (fun x hx => hp x (List.mem_cons_of_mem _ hx))]
      unfold writeFileTree
      rw [if_neg (fun hq => hp (rel, c) (List.mem_cons_self _ _) hq.symm)]

theorem writeNewMain_sets (nf : List (String × String)) (t : Tree)
    (hnd : (nf.map Prod.fst).Nodup) :
    ∀ rc ∈ nf, (writeNewMain t nf).2 rc.1 = some rc.2 := by
  induction nf generalizing t with
  | nil =>
    intro rc h
    cases h
  | cons hd rest ih =>
    obtain ⟨rel, c⟩ := hd
    rw [List.map_cons, List.nodup_cons] at hnd
    obtain ⟨hni, hnd2⟩ := hnd
    intro rc hrc
    have hrest : ∀ x ∈ rest, x.1 ≠ rel :=
      fun x hx hxe => hni (List.mem_map.mpr ⟨x, hx, hxe⟩)
    rcases List.mem_cons.mp hrc with h | h
    · subst h
      by_cases hcur : t rel = some c
      · rw [writeNewMain, if_pos hcur, writeNewMain_preserves rest t rel hrest]
        exact hcur
      · rw [writeNewMain, if_neg hcur]
        dsimp only
        rw [writeNewMain_preserves rest _ rel hrest]
        unfold writeFileTree
        rw [if_pos rfl]
    · by_cases hcur : t rel = some c
      · rw [writeNewMain, if_pos hcur]
        exact ih t hnd2 rc h
      · rw [writeNewMain, if_neg hcur]
        dsimp only
        exact ih _ hnd2 rc h

theorem acceptIntoMain_preserves (g : GitOps) (ds : List String) (t : Tree) (p : String)
    (hp : ∀ t2 d, d ∈ ds → g.applyDiff t2 d p = t2 p) :
    (acceptIntoMain g t ds).2 p = t p := by
  induction ds generalizing t with
  | nil => rfl
  | cons d rest ih =>
    by_cases h : g.revCheckOk t d = true
    · rw [acceptIntoMain, if_pos h]
      exact ih t (fun t2 x hx => hp t2 x (List.mem_cons_of_mem _ hx))
    · rw [acceptIntoMain, if_neg h]
      dsimp only
      rw [ih _ (fun t2 x hx => hp t2 x (List.mem_cons_of_mem _ hx))]
      exact hp t d (List.mem_cons_self _ _)

theorem writeNewMain_noop (nf : List (String × String)) (t : Tree)
    (h : ∀ rc ∈ nf, t rc.1 = some rc.2) : writeNewMain t nf = (0, t) := by
  induction nf with
  | nil => rfl
  | cons hd rest ih =>
    obtain ⟨rel, c⟩ := hd
    rw [writeNewMain, if_pos (h (rel, c) (List.mem_cons_self _ _))]
    exact ih (fun rc hrc => h rc (List.mem_cons_of_mem _ hrc))

theorem acceptIntoMain_all_rev (g : GitOps) (ds : List String) (t : Tree)
    (h : ∀ d ∈ ds, g.revCheckOk t d = true) : acceptIntoMain g t ds = (0, t) := by
  induction ds with
  | nil => rfl
  | cons d rest ih =>
    rw [acceptIntoMain, if_pos (h d (List.mem_cons_self _ _))]
    exact ih (fun x hx => h x (List.mem_cons_of_mem _ hx))

/-- C3 amended: if any modification diff fails the validate-only
application check in the worktree, the whole batch is rejected
atomically: `accepted = 0`, `waived = 1`, the real tree is untouched (no
partial merge), the isolated worktree is removed, and the waiver is
recorded with reason "patch apply failed in worktree" (the code's literal
reason string). -/
theorem ingest_patch_failure_atomic (g : GitOps) (verifyOk : Tree → Bool) (main : Tree)
    (newFiles : List (String × String)) (applyDiffs : List String)
    (hfail : (applyPatchesIn g (writeAll main newFiles) applyDiffs).1 = false) :
    ingestDiffs g verifyOk main newFiles applyDiffs =
      { accepted := 0, waived := 1, tree := main,
        waiverReason := some "patch apply failed in worktree", worktreeRemoved := true } := by
  have hne : ¬ (newFiles = [] ∧ applyDiffs = []) := by
    rintro ⟨h1, h2⟩
    subst h1
    subst h2
    exact absurd hfail (by simp [applyPatchesIn])
  unfold ingestDiffs
  rw [if_neg hne, if_pos hfail]

/-- C3 counterexample: the waiver reason recorded on the patch-failure
path is the literal "patch apply failed in worktree", not the claimed
"patch apply failed" (the rest of the claimed behaviour does hold on this
input: zero accepted, one waived). -/
theorem ingest_patch_failure_reason_cx :
    (ingestDiffs gAlwaysFail verifyTrue emptyTree [] ["bad.diff"]).accepted = 0 ∧
    (ingestDiffs gAlwaysFail verifyTrue emptyTree [] ["bad.diff"]).waived = 1 ∧
    (ingestDiffs gAlwaysFail verifyTrue emptyTree [] ["bad.diff"]).waiverReason =
      some "patch apply failed in worktree" ∧
    (ingestDiffs gAlwaysFail verifyTrue emptyTree [] ["bad.diff"]).waiverReason ≠
      some "patch apply failed" := by
  refine ⟨rfl, rfl, rfl, ?_⟩
  intro h
  exact absurd (Option.some.inj h) (by decide)

/-- A closed instance of `ingest_patch_failure_atomic`. -/
theorem ingest_patch_failure_atomic_witness :
    (applyPatchesIn gAlwaysFail (writeAll emptyTree []) ["bad.diff"]).1 = false ∧
    ingestDiffs gAlwaysFail verifyTrue emptyTree [] ["bad.diff"] =
      { accepted := 0, waived := 1, tree := emptyTree,
        waiverReason := some "patch apply failed in worktree", worktreeRemoved := true } :=
  ⟨rfl, ingest_patch_failure_atomic gAlwaysFail verifyTrue emptyTree [] ["bad.diff"] rfl⟩

/-- C4 (counterexample): `ingest_diffs` does not de-duplicate new-file
entries — the collection loop (agent_bridge.py lines 243-269) appends one
`(rel, content)` entry per `/dev/null` diff, and the merge loop (lines
318-329) writes and counts every entry whose content differs from the
current file.  A directory holding two creation diffs for the same path
with different contents therefore makes every call rewrite and re-count
both entries: the first call succeeds (`waived = 0`, `accepted = 2`), yet
the second call on the tree the first call left again reports
`accepted = 2`, not `0` — the claim's unconditional batch idempotence is
false. -/
theorem ingest_batch_duplicate_path_cx :
    (ingestDiffs gAllOk verifyTrue emptyTree [("x", "A"), ("x", "B")] []).waived = 0 ∧
    (ingestDiffs gAllOk verifyTrue emptyTree [("x", "A"), ("x", "B")] []).accepted = 2 ∧
    (ingestDiffs gAllOk verifyTrue
        (ingestDiffs gAllOk verifyTrue emptyTree [("x", "A"), ("x", "B")] []).tree
        [("x", "A"), ("x", "B")] []).accepted = 2 :=
  ⟨rfl, rfl, rfl⟩

/-- C4 (amended): ingestion batch idempotence holds for well-formed input
directories.  If the directory's new-file diffs target pairwise distinct
paths and its modification diffs leave the new-file paths unchanged (both
are restrictions on the input directory — `ingest_diffs` itself does not
enforce them, see the counterexample), and a first `ingest` call succeeds
(`waived = 0`, its changes merged into the real tree), then a second call
on the same classified diff directory, starting from the tree the first
call left, reports `accepted = 0` — whatever its own worktree validation
and verification do.  `hrev` states the version-control collaborator's
guarantee: after the merge, git's reverse-apply probe recognises each
merged diff as present. -/
theorem ingest_batch_idempotent
    (g g2 : GitOps) (v v2 : Tree → Bool) (main : Tree)
    (newFiles : List (String × String)) (applyDiffs : List String)
    (hnd : (newFiles.map Prod.fst).Nodup)
    (hpres : ∀ t d, d ∈ applyDiffs → ∀ rc ∈ newFiles, g.applyDiff t d rc.1 = t rc.1)
    (hsucc : (ingestDiffs g v main newFiles applyDiffs).waived = 0)
    (hrev : ∀ d ∈ applyDiffs,
      g2.revCheckOk (ingestDiffs g v main newFiles applyDiffs).tree d = true) :
    (ingestDiffs g2 v2 (ingestDiffs g v main newFiles applyDiffs).tree
        newFiles applyDiffs).accepted = 0 := by
  by_cases hemp : newFiles = [] ∧ applyDiffs = []
  · obtain ⟨h1, h2⟩ := hemp
    subst h1
    subst h2
    rfl
  · by_cases hpatch : (applyPatchesIn g (writeAll main newFiles) applyDiffs).1 = false
    · exfalso
      unfold ingestDiffs at hsucc
      rw [if_neg hemp, if_pos hpatch] at hsucc
      exact absurd hsucc (by norm_num)
    · by_cases hver : v (applyPatchesIn g (writeAll main newFiles) applyDiffs).2 = true
      · have htree : (ingestDiffs g v main newFiles applyDiffs).tree =
            (acceptIntoMain g (writeNewMain main newFiles).2 applyDiffs).2 := by
          unfold ingestDiffs
          rw [if_neg hemp, if_neg hpatch, if_pos hver]
        have hkeys : ∀ rc ∈ newFiles,
            (ingestDiffs g v main newFiles applyDiffs).tree rc.1 = some rc.2 := by
          intro rc hrc
          rw [htree,
            acceptIntoMain_preserves g applyDiffs _ rc.1 (fun t2 d hd => hpres t2 d hd rc hrc)]
          exact writeNewMain_sets newFiles main hnd rc hrc
        set T := (ingestDiffs g v main newFiles applyDiffs).tree with hT
        by_cases hpatch2 : (applyPatchesIn g2 (writeAll T newFiles) applyDiffs).1 = false
        · unfold ingestDiffs
          rw [if_neg hemp, if_pos hpatch2]
        · by_cases hver2 : v2 (applyPatchesIn g2 (writeAll T newFiles) applyDiffs).2 = true
          · unfold ingestDiffs
            rw [if_neg hemp, if_neg hpatch2, if_pos hver2]
            dsimp only
            rw [writeNewMain_noop newFiles T hkeys, acceptIntoMain_all_rev g2 applyDiffs T hrev]
            rfl
          · unfold ingestDiffs
            rw [if_neg hemp, if_neg hpatch2, if_neg hver2]
      · exfalso
        unfold ingestDiffs at hsucc
        rw [if_neg hemp, if_neg hpatch, if_neg hver] at hsucc
        exact absurd hsucc (by norm_num)

/-- A closed instance of `ingest_batch_idempotent`: one new file and one
modification diff, ingested twice. -/
theorem ingest_batch_idempotent_witness :
    ((([("a.txt", "hello")] : List (String × String)).map Prod.fst).Nodup) ∧
    (ingestDiffs gAllOk verifyTrue emptyTree [("a.txt", "hello")] ["d1.diff"]).waived = 0 ∧
    (ingestDiffs gAllOk verifyTrue
        (ingestDiffs gAllOk verifyTrue emptyTree [("a.txt", "hello")] ["d1.diff"]).tree
        [("a.txt", "hello")] ["d1.diff"]).accepted = 0 :=
  ⟨by decide, rfl,
    ingest_batch_idempotent gAllOk gAllOk verifyTrue verifyTrue emptyTree
      [("a.txt", "hello")] ["d1.diff"] (by decide)
      (fun _ _ _ _ _ => rfl) rfl (fun _ _ => rfl)⟩

/-! ## Analysis of the textual substitution (`fix_yaml`)

The lemmas below analyse the left-to-right non-overlapping replacement
`pyReplace`: after replacing, no occurrence of the replaced word remains,
the replacement word does appear, and any pattern that cannot overlap the
replaced word (no shared prefixes/suffixes, different head characters)
survives untouched.  The boundary side conditions are stated in
`take`/`drop` form so that concrete instances are decidable.
-/

theorem containsSub_iff (hay pat : List Char) : containsSub hay pat = true ↔ pat <:+: hay := by
  induction hay with
  | nil => simp [containsSub, List.isEmpty_iff, List.infix_nil]
  | cons c t ih =>
    simp [containsSub, Bool.or_eq_true, ih, List.infix_cons_iff, List.isPrefixOf_iff_prefix]

theorem pyReplaceGo_skip (old new : List Char) (t : List Char) :
    ∀ k : Nat, pyReplaceGo old new t k = pyReplaceGo old new (t.drop k) 0 := by
  induction t with
  | nil =>
    intro k
    cases k <;> rfl
  | cons c t ih =>
    intro k
    cases k with
    | zero => rfl
    | succ k =>
      show pyReplaceGo old new t k = pyReplaceGo old new ((c :: t).drop (k + 1)) 0
      rw [List.drop_succ_cons]
      exact ih k

theorem pyReplaceGo_zero (old new : List Char) (hold : old ≠ []) (c : Char) (t : List Char) :
    pyReplaceGo old new (c :: t) 0 =
      if old.isPrefixOf (c :: t) then
        new ++ pyReplaceGo old new ((c :: t).drop old.length) 0
      else c :: pyReplaceGo old new t 0 := by
  show (if old.isPrefixOf (c :: t) then new ++ pyReplaceGo old new t (old.length - 1)
        else c :: pyReplaceGo old new t 0) = _
  by_cases hp : old.isPrefixOf (c :: t) = true
  · rw [if_pos hp, if_pos hp, pyReplaceGo_skip old new t (old.length - 1)]
    obtain ⟨a, as, rfl⟩ := List.exists_cons_of_ne_nil hold
    rw [List.length_cons, List.drop_succ_cons, Nat.add_sub_cancel]
  · rw [if_neg hp, if_neg hp]

theorem infix_of_infix_right {t x y : List Char} (h : t <:+: y) : t <:+: x ++ y := by
  obtain ⟨a, b, hab⟩ := h
  exact ⟨x ++ a, b, by rw [← hab]; simp [List.append_assoc]⟩

theorem infix_append_split {t x y : List Char} (h : t <:+: x ++ y) :
    t <:+: x ∨ t <:+: y ∨
    ∃ k, 0 < k ∧ k < t.length ∧ t.take k <:+ x ∧ t.drop k <+: y := by
  obtain ⟨u, v, huv⟩ := h
  rw [List.append_assoc] at huv
  rcases List.append_eq_append_iff.mp huv with ⟨a, hx, ha⟩ | ⟨c2, _, hy⟩
  · rcases List.append_eq_append_iff.mp ha with ⟨b, hab, _⟩ | ⟨d, htd, hyd⟩
    · left
      exact ⟨u, b, by rw [hx, hab, List.append_assoc]⟩
    · by_cases hA : a = []
      · subst hA
        right; left
        rw [List.nil_append] at htd
        exact ⟨[], v, by rw [hyd, ← htd]; simp⟩
      · by_cases hD : d = []
        · subst hD
          rw [List.append_nil] at htd
          left
          subst htd
          exact (show t <:+ x from ⟨u, hx.symm⟩).isInfix
        · right; right
          refine ⟨a.length, List.length_pos.mpr hA, ?_, ?_, ?_⟩
          · have h1 : t.length = a.length + d.length := by rw [htd, List.length_append]
            have h2 : 0 < d.length := List.length_pos.mpr hD
            omega
          · rw [htd, List.take_left]
            exact ⟨u, hx.symm⟩
          · rw [htd, List.drop_left]
            exact ⟨v, hyd.symm⟩
  · right; left
    exact ⟨c2, v, by rw [hy, List.append_assoc]⟩

theorem pyReplace_new_infix (old new : List Char) (hold : old ≠ []) :
    ∀ (n : Nat) (s : List Char), s.length ≤ n → old <:+: s →
      new <:+: pyReplaceGo old new s 0 := by
  intro n
  induction n with
  | zero =>
    intro s hn hin
    have hs : s = [] := List.eq_nil_of_length_eq_zero (Nat.le_zero.mp hn)
    subst hs
    exact absurd (List.infix_nil.mp hin) hold
  | succ n ih =>
    intro s hn hin
    cases s with
    | nil => exact absurd (List.infix_nil.mp hin) hold
    | cons c s2 =>
      rw [pyReplaceGo_zero old new hold]
      by_cases hp : old.isPrefixOf (c :: s2) = true
      · rw [if_pos hp]
        exact (List.prefix_append new _).isInfix
      · rw [if_neg hp]
        rcases List.infix_cons_iff.mp hin with h | h
        · exact absurd (List.isPrefixOf_iff_prefix.mpr h) hp
        · exact List.infix_cons (ih s2 (Nat.le_of_succ_le_succ hn) h)

theorem pyReplace_prefix_reflect (old new base : List Char) (hold : old ≠ [])
    (hlen : base.length ≤ new.length)
    (hnp : ∀ j, j < base.length → ¬ ((base.drop j) <+: new)) :
    ∀ (s t : List Char), t <:+ base → t <+: pyReplaceGo old new s 0 → t <+: s := by
  intro s
  induction s with
  | nil =>
    intro t _ htp
    have ht : t = [] := List.prefix_nil.mp htp
    subst ht
    exact List.nil_prefix
  | cons c s2 ih =>
    intro t hts htp
    rw [pyReplaceGo_zero old new hold] at htp
    by_cases hp : old.isPrefixOf (c :: s2) = true
    · rw [if_pos hp] at htp
      cases t with
      | nil => exact List.nil_prefix
      | cons tc t2 =>
        exfalso
        have hle : (tc :: t2).length ≤ new.length := le_trans hts.length_le hlen
        have hpre : (tc :: t2) <+: new := by
          rw [List.prefix_iff_eq_take] at htp ⊢
          rw [List.take_append_of_le_length hle] at htp
          exact htp
        have hj : base.length - (tc :: t2).length < base.length := by
          have h1 : (tc :: t2).length = t2.length + 1 := rfl
          have h2 : (tc :: t2).length ≤ base.length := hts.length_le
          omega
        exact hnp _ hj (by rw [← List.suffix_iff_eq_drop.mp hts]; exact hpre)
    · rw [if_neg hp] at htp
      cases t with
      | nil => exact List.nil_prefix
      | cons tc t2 =>
        rw [List.cons_prefix_cons] at htp
        obtain ⟨rfl, ht2⟩ := htp
        exact List.cons_prefix_cons.mpr
          ⟨rfl, ih t2 (List.IsSuffix.trans (List.suffix_cons tc t2) hts) ht2⟩

theorem pyReplace_prefix_preserved (old new base : List Char) (hold : old ≠ [])
    (hhead : ∀ j, j < base.length → ((base.drop j).head? ≠ old.head?)) :
    ∀ (s t : List Char), t <:+ base → t <+: s → t <+: pyReplaceGo old new s 0 := by
  intro s
  induction s with
  | nil =>
    intro t _ htp
    have ht : t = [] := List.prefix_nil.mp htp
    subst ht
    exact List.nil_prefix
  | cons c s2 ih =>
    intro t hts htp
    rw [pyReplaceGo_zero old new hold]
    by_cases hp : old.isPrefixOf (c :: s2) = true
    · rw [if_pos hp]
      cases t with
      | nil => exact List.nil_prefix
      | cons tc t2 =>
        exfalso
        obtain ⟨oc, os, hoe⟩ := List.exists_cons_of_ne_nil hold
        have hoc : oc = c := by
          have hq := List.isPrefixOf_iff_prefix.mp hp
          rw [hoe, List.cons_prefix_cons] at hq
          exact hq.1
        have htc : tc = c := (List.cons_prefix_cons.mp htp).1
        have hj : base.length - (tc :: t2).length < base.length := by
          have h1 : (tc :: t2).length = t2.length + 1 := rfl
          have h2 : (tc :: t2).length ≤ base.length := hts.length_le
          omega
        apply hhead _ hj
        rw [← List.suffix_iff_eq_drop.mp hts, hoe]
        simp [htc, hoc]
    · rw [if_neg hp]
      cases t with
      | nil => exact List.nil_prefix
      | cons tc t2 =>
        rw [List.cons_prefix_cons] at htp
        obtain ⟨rfl, ht2⟩ := htp
        exact List.cons_prefix_cons.mpr
          ⟨rfl, ih t2 (List.IsSuffix.trans (List.suffix_cons tc t2) hts) ht2⟩

theorem pyReplace_infix_preserved (old new p : List Char) (hold : old ≠ [])
    (hp1 : ¬ p <:+: old)
    (hp2 : ∀ k, k < p.length → 0 < k → ¬ ((p.take k) <:+ old))
    (hhead : ∀ j, j < p.length → ((p.drop j).head? ≠ old.head?)) :
    ∀ (n : Nat) (s : List Char), s.length ≤ n → p <:+: s →
      p <:+: pyReplaceGo old new s 0 := by
  intro n
  induction n with
  | zero =>
    intro s hn hin
    have hs : s = [] := List.eq_nil_of_length_eq_zero (Nat.le_zero.mp hn)
    subst hs
    rw [List.infix_nil.mp hin]
    exact List.nil_infix
  | succ n ih =>
    intro s hn hin
    cases s with
    | nil =>
      rw [List.infix_nil.mp hin]
      exact List.nil_infix
    | cons c s2 =>
      by_cases hp : old.isPrefixOf (c :: s2) = true
      · rw [pyReplaceGo_zero old new hold, if_pos hp]
        obtain ⟨r, hr⟩ := List.isPrefixOf_iff_prefix.mp hp
        have hdrop : (c :: s2).drop old.length = r := by rw [← hr, List.drop_left]
        have hrlen : r.length ≤ n := by
          have hlen2 := congrArg List.length hr
          rw [List.length_append, List.length_cons] at hlen2
          have h0 : 0 < old.length := List.length_pos.mpr hold
          have h3 : s2.length + 1 ≤ n + 1 := hn
          omega
        rw [hdrop]
        rw [← hr] at hin
        rcases infix_append_split hin with h | h | ⟨k, hk0, hkl, hkt, _⟩
        · exact absurd h hp1
        · exact infix_of_infix_right (ih r hrlen h)
        · exact absurd hkt (hp2 k hkl hk0)
      · rcases List.infix_cons_iff.mp hin with h | h
        · exact (pyReplace_prefix_preserved old new p hold hhead (c :: s2) p
            (List.suffix_refl p) h).isInfix
        · rw [pyReplaceGo_zero old new hold, if_neg hp]
          exact List.infix_cons (ih s2 (Nat.le_of_succ_le_succ hn) h)

theorem pyReplace_no_old (old new : List Char) (hold : old ≠ [])
    (h1 : ¬ old <:+: new)
    (h2 : ∀ k, k < old.length → 0 < k → ¬ ((old.take k) <:+ new))
    (hlenB : (old.drop 1).length ≤ new.length)
    (hnpB : ∀ j, j < (old.drop 1).length → ¬ (((old.drop 1).drop j) <+: new)) :
    ∀ (n : Nat) (s : List Char), s.length ≤ n → ¬ old <:+: pyReplaceGo old new s 0 := by
  intro n
  induction n with
  | zero =>
    intro s hn hin
    have hs : s = [] := List.eq_nil_of_length_eq_zero (Nat.le_zero.mp hn)
    subst hs
    exact hold (List.infix_nil.mp hin)
  | succ n ih =>
    intro s hn hin
    cases s with
    | nil => exact hold (List.infix_nil.mp hin)
    | cons c s2 =>
      by_cases hp : old.isPrefixOf (c :: s2) = true
      · rw [pyReplaceGo_zero old new hold, if_pos hp] at hin
        obtain ⟨r, hr⟩ := List.isPrefixOf_iff_prefix.mp hp
        have hdrop : (c :: s2).drop old.length = r := by rw [← hr, List.drop_left]
        have hrlen : r.length ≤ n := by
          have hlen2 := congrArg List.length hr
          rw [List.length_append, List.length_cons] at hlen2
          have h0 : 0 < old.length := List.length_pos.mpr hold
          have h3 : s2.length + 1 ≤ n + 1 := hn
          omega
        rw [hdrop] at hin
        rcases infix_append_split hin with h | h | ⟨k, hk0, hkl, hkt, _⟩
        · exact h1 h
        · exact ih r hrlen h
        · exact (h2 k hkl hk0) hkt
      · rw [pyReplaceGo_zero old new hold, if_neg hp] at hin
        rcases List.infix_cons_iff.mp hin with h | h
        · rcases List.prefix_cons_iff.mp h with hnil | ⟨os, hoe, hos⟩
          · exact hold hnil
          · have hosd : os = old.drop 1 := by rw [hoe]; simp
            have hps : os <+: s2 := by
              apply pyReplace_prefix_reflect old new (old.drop 1) hold hlenB hnpB s2 os ?_ hos
              rw [hosd]
            apply hp
            apply List.isPrefixOf_iff_prefix.mpr
            rw [hoe]
            exact List.cons_prefix_cons.mpr ⟨rfl, hps⟩
        · exact ih s2 (Nat.le_of_succ_le_succ hn) h

/-- C10 counterexample: the YAML-015 fixer substitutes the call name but
does **not** remove the now-meaningless `Loader=...` keyword argument —
it is still present in the fixed text. -/
theorem fix_yaml_loader_kept_cx :
    (fix_yaml yamlLoaderSrc).1 =
      "import yaml\nd = yaml.safe_load(s, Loader=yaml.FullLoader)\n".data ∧
    containsSub (fix_yaml yamlLoaderSrc).1 ("Loader=".data) = true := by
  constructor <;> decide

/-- C10 amended: on a source containing `yaml.load(` and not already
containing `yaml.safe_load(`, the fixer performs exactly the textual
substitution of the unsafe call name by its safe counterpart: the output
is `src.replace("yaml.load(", "yaml.safe_load(")`, no occurrence of
`yaml.load(` remains, and a loader-selection keyword argument present in
the source is still present in the output (it is not removed). -/
theorem fix_yaml_substitution (src : List Char)
    (hload : containsSub src yamlLoadPat = true)
    (hsafe : containsSub src yamlSafePat = false) :
    (fix_yaml src).1 = pyReplace src yamlLoadPat yamlSafePat ∧
    containsSub (fix_yaml src).1 yamlLoadPat = false ∧
    (containsSub src ("Loader=".data) = true →
      containsSub (fix_yaml src).1 ("Loader=".data) = true) := by
  have hg : (containsSub src yamlLoadPat && !containsSub src yamlSafePat) = true := by
    rw [hload, hsafe]
    rfl
  have hout : (fix_yaml src).1 = pyReplace src yamlLoadPat yamlSafePat := by
    unfold fix_yaml
    dsimp only
    rw [if_pos hg]
  have hold : yamlLoadPat ≠ [] := by decide
  have hrepl : pyReplace src yamlLoadPat yamlSafePat =
      pyReplaceGo yamlLoadPat yamlSafePat src 0 := by
    unfold pyReplace
    rw [if_neg hold]
  refine ⟨hout, ?_, ?_⟩
  · rw [hout, hrepl, Bool.eq_false_iff]
    intro hc
    rw [containsSub_iff] at hc
    exact pyReplace_no_old yamlLoadPat yamlSafePat hold (by decide) (by decide)
      (by decide) (by decide) src.length src le_rfl hc
  · intro hl
    rw [hout, hrepl, containsSub_iff]
    rw [containsSub_iff] at hl
    exact pyReplace_infix_preserved yamlLoadPat yamlSafePat ("Loader=".data) hold
      (by decide) (by decide) (by decide) src.length src le_rfl hl

/-- A closed instance of `fix_yaml_substitution`. -/
theorem fix_yaml_substitution_witness :
    containsSub yamlLoaderSrc yamlLoadPat = true ∧
    containsSub yamlLoaderSrc yamlSafePat = false ∧
    (fix_yaml yamlLoaderSrc).1 = pyReplace yamlLoaderSrc yamlLoadPat yamlSafePat :=
  ⟨by decide, by decide, (fix_yaml_substitution yamlLoaderSrc (by decide) (by decide)).1⟩

/-- The YAML-015 fixer is idempotent on every source text: running
`fix_yaml` on its own output changes nothing and reports no diff.  (This
is the purely textual fragment of the patcher's idempotence contract.) -/
theorem fix_yaml_idempotent (src : List Char) :
    fix_yaml (fix_yaml src).1 = ((fix_yaml src).1, false) := by
  by_cases hg : (containsSub src yamlLoadPat && !containsSub src yamlSafePat) = true
  · have hout : (fix_yaml src).1 = pyReplaceGo yamlLoadPat yamlSafePat src 0 := by
      unfold fix_yaml pyReplace
      dsimp only
      rw [if_pos hg, if_neg (show ¬ yamlLoadPat = ([] : List Char) by decide)]
    have hload : yamlLoadPat <:+: src := by
      rw [← containsSub_iff]
      have hx := hg
      rw [Bool.and_eq_true] at hx
      exact hx.1
    have hsafe2 : containsSub (fix_yaml src).1 yamlSafePat = true := by
      rw [hout, containsSub_iff]
      exact pyReplace_new_infix yamlLoadPat yamlSafePat (by decide)
        src.length src le_rfl hload
    set t := (fix_yaml src).1 with ht
    show fix_yaml t = (t, false)
    unfold fix_yaml
    dsimp only
    rw [hsafe2, Bool.not_true, Bool.and_false]
    simp
  · have hout : (fix_yaml src).1 = src := by
      unfold fix_yaml
      dsimp only
      rw [if_neg hg]
    rw [hout]
    show fix_yaml src = (src, false)
    conv_lhs => unfold fix_yaml
    dsimp only
    rw [if_neg hg]
    simp

/-! ## Analysis of the edit applier (`_apply_edits`)

The facts below establish what the descending sort does (a stable sort is
extensionally unique) and that, for well-formed non-overlapping edits,
the sorted fold of splices equals the simultaneous splice against the
original document — each replacement lands at its original offsets — and
is therefore invariant under permuting the input edit list when the sort
keys are pairwise distinct.
-/

theorem key4LE_iff (a b : Nat × Nat × Nat × Nat) :
    key4LE a b = true ↔
      (a.1 < b.1 ∨ (a.1 = b.1 ∧ (a.2.1 < b.2.1 ∨ (a.2.1 = b.2.1 ∧
        (a.2.2.1 < b.2.2.1 ∨ (a.2.2.1 = b.2.2.1 ∧ a.2.2.2 ≤ b.2.2.2)))))) := by
  unfold key4LE
  split_ifs <;> simp_all <;> omega

theorem key4LE_total (a b : Nat × Nat × Nat × Nat) :
    key4LE a b = true ∨ key4LE b a = true := by
  rw [key4LE_iff, key4LE_iff]
  omega

theorem key4LE_trans {a b c : Nat × Nat × Nat × Nat}
    (h1 : key4LE a b = true) (h2 : key4LE b c = true) : key4LE a c = true := by
  rw [key4LE_iff] at h1 h2 ⊢
  omega

theorem key4LE_antisymm {a b : Nat × Nat × Nat × Nat}
    (h1 : key4LE a b = true) (h2 : key4LE b a = true) : a = b := by
  rw [key4LE_iff] at h1 h2
  obtain ⟨a1, a2, a3, a4⟩ := a
  obtain ⟨b1, b2, b3, b4⟩ := b
  simp only [Prod.mk.injEq]
  dsimp only at h1 h2
  omega

theorem insertDesc_perm (e : Edit) (l : List Edit) : (insertDesc e l).Perm (e :: l) := by
  induction l with
  | nil => exact List.Perm.refl _
  | cons x xs ih =>
    unfold insertDesc
    by_cases h : key4LE (editKey e) (editKey x) = true
    · rw [if_pos h]
      exact (ih.cons x).trans (List.Perm.swap e x xs)
    · rw [if_neg h]

theorem sortDesc_perm (edits : List Edit) : (sortDesc edits).Perm edits := by
  suffices h : ∀ (l acc : List Edit),
      (l.foldl (fun a e => insertDesc e a) acc).Perm (acc ++ l) by
    simpa using h edits []
  intro l
  induction l with
  | nil =>
    intro acc
    rw [List.foldl_nil, List.append_nil]
  | cons e l ih =>
    intro acc
    rw [List.foldl_cons]
    refine (ih (insertDesc e acc)).trans ?_
    refine ((insertDesc_perm e acc).append_right l).trans ?_
    exact List.perm_middle.symm

theorem insertDesc_sorted (e : Edit) (l : List Edit)
    (hs : l.Pairwise (fun a b => key4LE (editKey b) (editKey a) = true)) :
    (insertDesc e l).Pairwise (fun a b => key4LE (editKey b) (editKey a) = true) := by
  induction l with
  | nil => simp [insertDesc]
  | cons x xs ih =>
    rw [List.pairwise_cons] at hs
    obtain ⟨hx, hxs⟩ := hs
    unfold insertDesc
    by_cases h : key4LE (editKey e) (editKey x) = true
    · rw [if_pos h]
      rw [List.pairwise_cons]
      constructor
      · intro b hb
        rcases List.mem_cons.mp ((insertDesc_perm e xs).mem_iff.mp hb) with rfl | hbx
        · exact h
        · exact hx b hbx
      · exact ih hxs
    · rw [if_neg h]
      have hxe : key4LE (editKey x) (editKey e) = true := by
        rcases key4LE_total (editKey e) (editKey x) with hh | hh
        · exact absurd hh h
        · exact hh
      rw [List.pairwise_cons]
      refine ⟨?_, List.pairwise_cons.mpr ⟨hx, hxs⟩⟩
      intro b hb
      rcases List.mem_cons.mp hb with rfl | hbx
      · exact hxe
      · exact key4LE_trans (hx b hbx) hxe

theorem sortDesc_sorted (edits : List Edit) :
    (sortDesc edits).Pairwise (fun a b => key4LE (editKey b) (editKey a) = true) := by
  suffices h : ∀ (l acc : List Edit),
      acc.Pairwise (fun a b => key4LE (editKey b) (editKey a) = true) →
      (l.foldl (fun a e => insertDesc e a) acc).Pairwise
        (fun a b => key4LE (editKey b) (editKey a) = true) by
    exact h edits [] (by simp)
  intro l
  induction l with
  | nil =>
    intro acc h
    simpa using h
  | cons e l ih =>
    intro acc h
    rw [List.foldl_cons]
    exact ih _ (insertDesc_sorted e acc h)

theorem sorted_perm_eq : ∀ (l1 l2 : List Edit), l1.Perm l2 →
    l1.Pairwise (fun a b => key4LE (editKey b) (editKey a) = true) →
    l2.Pairwise (fun a b => key4LE (editKey b) (editKey a) = true) →
    (l1.map editKey).Nodup → l1 = l2 := by
  intro l1
  induction l1 with
  | nil =>
    intro l2 hp _ _ _
    exact hp.nil_eq
  | cons a t1 ih =>
    intro l2 hp hs1 hs2 hnd
    cases l2 with
    | nil => simpa using hp.length_eq
    | cons b t2 =>
      by_cases hab : a = b
      · subst hab
        rw [List.pairwise_cons] at hs1 hs2
        rw [List.map_cons, List.nodup_cons] at hnd
        rw [ih t2 hp.cons_inv hs1.2 hs2.2 hnd.2]
      · exfalso
        have ha2 : a ∈ t2 := by
          rcases List.mem_cons.mp (hp.mem_iff.mp (List.mem_cons_self a t1)) with h | h
          · exact absurd h hab
          · exact h
        have hb1 : b ∈ t1 := by
          rcases List.mem_cons.mp (hp.symm.mem_iff.mp (List.mem_cons_self b t2)) with h | h
          · exact absurd h.symm hab
          · exact h
        rw [List.pairwise_cons] at hs1 hs2
        have hkey : editKey b = editKey a := key4LE_antisymm (hs1.1 b hb1) (hs2.1 a ha2)
        rw [List.map_cons, List.nodup_cons] at hnd
        exact hnd.1 (List.mem_map.mpr ⟨b, hb1, hkey⟩)

theorem posLE_refl (p : Nat × Nat) : posLE p p := Or.inr ⟨rfl, Nat.le_refl _⟩

theorem posLE_trans {p q r : Nat × Nat} (h1 : posLE p q) (h2 : posLE q r) :
    posLE p r := by
  unfold posLE at *
  omega

theorem posLE_antisymm {p q : Nat × Nat} (h1 : posLE p q) (h2 : posLE q p) :
    p = q := by
  obtain ⟨p1, p2⟩ := p
  obtain ⟨q1, q2⟩ := q
  unfold posLE at *
  simp only [Prod.mk.injEq]
  omega

set_option maxHeartbeats 1000000 in
/-- The line splitter loses no characters: the lengths of the kept-ends
lines sum to the length of the input. -/
theorem splitlinesKeep_sum (s : List Char) :
    ((splitlinesKeep s).map List.length).sum = s.length := by
  induction s using splitlinesKeep.induct with
  | case1 => rfl
  | case2 cs ih =>
    rw [splitlinesKeep]
    simp [ih]
    omega
  | case3 c cs h1 h2 ih =>
    rw [splitlinesKeep.eq_def]
    split
    · simp at *
    · rename_i cs1 heq
      rw [List.cons_eq_cons] at heq
      exact absurd heq.2 (fun h => h1 cs1 heq.1 h)
    · rename_i c1 cs1 hne heq
      rw [List.cons_eq_cons] at heq
      obtain ⟨rfl, rfl⟩ := heq
      rw [if_pos h2]
      simp [ih]
      omega
  | case4 c cs h1 h2 h3 ih =>
    rw [splitlinesKeep.eq_def]
    split
    · simp at *
    · rename_i cs1 heq
      rw [List.cons_eq_cons] at heq
      exact absurd heq.2 (fun h => h1 cs1 heq.1 h)
    · rename_i c1 cs1 hne heq
      rw [List.cons_eq_cons] at heq
      obtain ⟨rfl, rfl⟩ := heq
      rw [if_neg h2, h3]
      rw [h3] at ih
      simp at ih
      simp [ih]
      omega
  | case5 c cs h1 h2 l ls h3 ih =>
    rw [splitlinesKeep.eq_def]
    split
    · simp at *
    · rename_i cs1 heq
      rw [List.cons_eq_cons] at heq
      exact absurd heq.2 (fun h => h1 cs1 heq.1 h)
    · rename_i c1 cs1 hne heq
      rw [List.cons_eq_cons] at heq
      obtain ⟨rfl, rfl⟩ := heq
      rw [if_neg h2, h3]
      rw [h3] at ih
      simp at ih ⊢
      omega

theorem sum_take_mono (l : List Nat) {m n : Nat} (h : m ≤ n) :
    (l.take m).sum ≤ (l.take n).sum := by
  induction l generalizing m n with
  | nil => simp
  | cons x xs ih =>
    cases m with
    | zero => simp
    | succ m =>
      cases n with
      | zero => omega
      | succ n =>
        simp only [List.take_succ_cons, List.sum_cons]
        have := ih (Nat.le_of_succ_le_succ h)
        omega

theorem sum_take_succ_self (l : List Nat) (i : Nat) (h : i < l.length) :
    (l.take (i + 1)).sum = (l.take i).sum + l.getD i 0 := by
  rw [List.sum_take_succ l i h, List.getD_eq_getElem l 0 h]

/-- A valid position's offset never passes the end of the document. -/
theorem toOffset_le_sum (lines : List (List Char)) (p : Nat × Nat)
    (hv : validPos lines p) :
    toOffset lines p.1 p.2 ≤ ((lines.map List.length)).sum := by
  obtain ⟨h1, h2, h3⟩ := hv
  rw [toOffset, List.map_take]
  have hlt : p.1 - 1 < (lines.map List.length).length := by
    simpa using (by omega : p.1 - 1 < lines.length)
  have hget : (lines.map List.length).getD (p.1 - 1) 0 =
      (lines.getD (p.1 - 1) []).length := by
    rw [List.getD_eq_getElem _ 0 hlt,
      List.getD_eq_getElem lines [] (by simpa using hlt)]
    simp
  calc ((lines.map List.length).take (p.1 - 1)).sum + p.2
      ≤ ((lines.map List.length).take (p.1 - 1)).sum +
          (lines.map List.length).getD (p.1 - 1) 0 := by
        rw [hget]; omega
    _ = ((lines.map List.length).take (p.1 - 1 + 1)).sum :=
        (sum_take_succ_self _ _ hlt).symm
    _ ≤ ((lines.map List.length).take (lines.map List.length).length).sum :=
        sum_take_mono _ (by omega)
    _ = (lines.map List.length).sum := by rw [List.take_length]

/-- Offsets are monotone in the position order, over valid positions. -/
theorem toOffset_mono (lines : List (List Char)) (p q : Nat × Nat)
    (hp : validPos lines p) (hq : validPos lines q) (hle : posLE p q) :
    toOffset lines p.1 p.2 ≤ toOffset lines q.1 q.2 := by
  obtain ⟨hp1, hp2, hp3⟩ := hp
  obtain ⟨hq1, hq2, hq3⟩ := hq
  rcases hle with hlt | ⟨heq, hcle⟩
  · rw [toOffset, toOffset, List.map_take, List.map_take]
    have hplt : p.1 - 1 < (lines.map List.length).length := by
      simpa using (by omega : p.1 - 1 < lines.length)
    have hget : (lines.map List.length).getD (p.1 - 1) 0 =
        (lines.getD (p.1 - 1) []).length := by
      rw [List.getD_eq_getElem _ 0 hplt,
        List.getD_eq_getElem lines [] (by simpa using hplt)]
      simp
    calc ((lines.map List.length).take (p.1 - 1)).sum + p.2
        ≤ ((lines.map List.length).take (p.1 - 1)).sum +
            (lines.map List.length).getD (p.1 - 1) 0 := by
          rw [hget]; omega
      _ = ((lines.map List.length).take (p.1 - 1 + 1)).sum :=
          (sum_take_succ_self _ _ hplt).symm
      _ ≤ ((lines.map List.length).take (q.1 - 1)).sum :=
          sum_take_mono _ (by omega)
      _ ≤ ((lines.map List.length).take (q.1 - 1)).sum + q.2 := Nat.le_add_right _ _
  · rw [toOffset, toOffset, heq]
    omega

/-- Sort-key order implies position order of the starts, and of the stops
when the starts agree. -/
theorem key4LE_pos {a b : Edit}
    (h : key4LE (editKey b) (editKey a) = true) :
    posLE b.start a.start ∧ (b.start = a.start → posLE b.stop a.stop) := by
  rw [key4LE_iff] at h
  simp only [editKey] at h
  constructor
  · unfold posLE
    omega
  · intro he
    rw [Prod.ext_iff] at he
    unfold posLE
    omega

/-- For an edit `b` that sorts at or after `a` (descending), ordered regions
and non-overlap force `b`'s region to end at or before `a`'s start. -/
theorem stop_before_start_of_sorted {a b : Edit}
    (ha : posLE a.start a.stop)
    (hk : key4LE (editKey b) (editKey a) = true)
    (hd : posLE a.stop b.start ∨ posLE b.stop a.start) :
    posLE b.stop a.start := by
  rcases hd with hd | hd
  · have h1 : posLE b.start a.start := (key4LE_pos hk).1
    have heq1 : a.start = b.start := posLE_antisymm (posLE_trans ha hd) h1
    have heq2 : a.stop = a.start := posLE_antisymm (posLE_trans hd h1) ha
    have h2 : posLE b.stop a.stop := (key4LE_pos hk).2 heq1.symm
    rwa [heq2] at h2
  · exact hd

/-- A descending-sorted list of valid, ordered, pairwise non-overlapping
edits yields a well-formed descending offset-edit list. -/
theorem descOk_of_sorted (lines : List (List Char)) (l : List Edit) :
    ∀ (bound : Nat),
    (∀ e ∈ l, validPos lines e.start ∧ validPos lines e.stop ∧
      posLE e.start e.stop) →
    l.Pairwise (fun a b => key4LE (editKey b) (editKey a) = true) →
    l.Pairwise (fun a b => posLE a.stop b.start ∨ posLE b.stop a.start) →
    (∀ e ∈ l, toOffset lines e.stop.1 e.stop.2 ≤ bound) →
    DescOk bound (l.map (offsetsOf lines)) := by
  induction l with
  | nil =>
    intro bound _ _ _ _
    exact trivial
  | cons a l ih =>
    intro bound hv hs hd hb
    rw [List.pairwise_cons] at hs hd
    have hva := hv a (List.mem_cons_self _ _)
    refine ⟨?_, ?_, ?_⟩
    · exact toOffset_mono lines a.start a.stop hva.1 hva.2.1 hva.2.2
    · exact hb a (List.mem_cons_self _ _)
    · apply ih
      · exact fun e he => hv e (List.mem_cons_of_mem a he)
      · exact hs.2
      · exact hd.2
      · intro e he
        have hk := hs.1 e he
        have hde := hd.1 e he
        have hstop : posLE e.stop a.start :=
          stop_before_start_of_sorted hva.2.2 hk hde
        exact toOffset_mono lines e.stop a.start (hv e (List.mem_cons_of_mem a he)).2.1
          hva.1 hstop

/-- The fold of splices never touches an appended suffix when all its
regions lie within the prefix. -/
theorem oapplyDesc_append : ∀ (es : List OffEdit) (A B : List Char),
    DescOk A.length es → oapplyDesc (A ++ B) es = oapplyDesc A es ++ B := by
  intro es
  induction es with
  | nil =>
    intro A B _
    rfl
  | cons e es ih =>
    obtain ⟨s, t, r⟩ := e
    intro A B h
    obtain ⟨hst, htb, hrest⟩ := h
    have hsA : s ≤ A.length := le_trans hst htb
    have hlen : (A.take s).length = s := by
      rw [List.length_take]
      omega
    show oapplyDesc (spliceOne (A ++ B) (s, t, r)) es =
      oapplyDesc (spliceOne A (s, t, r)) es ++ B
    have h1 : spliceOne (A ++ B) (s, t, r) = A.take s ++ ((r ++ A.drop t) ++ B) := by
      unfold spliceOne
      rw [List.take_append_of_le_length hsA, List.drop_append_of_le_length htb]
      simp [List.append_assoc]
    have h2 : spliceOne A (s, t, r) = A.take s ++ (r ++ A.drop t) := by
      unfold spliceOne
      simp [List.append_assoc]
    rw [h1, h2, ih (A.take s) ((r ++ A.drop t) ++ B) (by rw [hlen]; exact hrest),
      ih (A.take s) (r ++ A.drop t) (by rw [hlen]; exact hrest)]
    simp [List.append_assoc]

/-- For a well-formed descending offset-edit list, the left fold of splices
over the evolving text equals the simultaneous splice against the original
text: every replacement lands at its original offsets. -/
theorem oapplyDesc_eq_splice : ∀ (es : List OffEdit) (src : List Char),
    DescOk src.length es → oapplyDesc src es = spliceDesc src es := by
  intro es
  induction es with
  | nil =>
    intro src _
    rfl
  | cons e es ih =>
    obtain ⟨s, t, r⟩ := e
    intro src h
    obtain ⟨hst, htb, hrest⟩ := h
    have hlen : (src.take s).length = s := by
      rw [List.length_take]
      omega
    show oapplyDesc (spliceOne src (s, t, r)) es =
      spliceDesc (src.take s) es ++ r ++ src.drop t
    have h1 : spliceOne src (s, t, r) = src.take s ++ (r ++ src.drop t) := by
      unfold spliceOne
      simp [List.append_assoc]
    rw [h1, oapplyDesc_append es (src.take s) (r ++ src.drop t)
      (by rw [hlen]; exact hrest), ih (src.take s) (by rw [hlen]; exact hrest)]
    simp [List.append_assoc]

/-- `_apply_edits` on a non-empty edit list is the fold of splices over the
descending-sorted edits, at original-document offsets. -/
theorem applyEdits_eq_oapply (src : List Char) (edits : List Edit)
    (hne : edits ≠ []) :
    applyEdits src edits =
      oapplyDesc src ((sortDesc edits).map (offsetsOf (splitlinesKeep src))) := by
  unfold applyEdits
  rw [if_neg (by simpa [List.isEmpty_iff] using hne)]
  unfold oapplyDesc
  rw [List.foldl_map]
  rfl

/-- C8 (counterexample): two DISTINCT zero-width edits at the same valid
position are pairwise non-overlapping in both orders (each region ends no
later than the other begins), yet `_apply_edits` is order-dependent on
them — the stable descending sort keeps their arrival order and each
insertion lands before the other.  The claim's unconditional permutation
invariance for pairwise non-overlapping edits is therefore false; it needs
pairwise-distinct sort keys. -/
theorem apply_edits_tie_cx :
    (posLE (Edit.stop tieEditX) (Edit.start tieEditY) ∨
      posLE (Edit.stop tieEditY) (Edit.start tieEditX)) ∧
    (posLE (Edit.stop tieEditY) (Edit.start tieEditX) ∨
      posLE (Edit.stop tieEditX) (Edit.start tieEditY)) ∧
    validPos (splitlinesKeep ("hello\n".data)) (Edit.start tieEditX) ∧
    validPos (splitlinesKeep ("hello\n".data)) (Edit.start tieEditY) ∧
    tieEditX ≠ tieEditY ∧
    applyEdits ("hello\n".data) [tieEditX, tieEditY] ≠
      applyEdits ("hello\n".data) [tieEditY, tieEditX] := by
  decide

/-- C8 (amended): `_apply_edits` applies the edits in stably descending
order of the `(start, end)` key.  For every source text and every list of
valid, ordered, pairwise non-overlapping edits with pairwise-distinct sort
keys, each replacement lands at its offsets in the original document (the
fold equals the simultaneous splice against the original text), and the
result is unchanged under every permutation of the input edit list. -/
theorem apply_edits_descending_splice (src : List Char)
    (edits edits' : List Edit)
    (hne : edits ≠ [])
    (hv : ∀ e ∈ edits, validPos (splitlinesKeep src) (Edit.start e) ∧
      validPos (splitlinesKeep src) (Edit.stop e) ∧
      posLE (Edit.start e) (Edit.stop e))
    (hd : edits.Pairwise (fun a b => posLE (Edit.stop a) (Edit.start b) ∨
      posLE (Edit.stop b) (Edit.start a)))
    (hnd : (edits.map editKey).Nodup)
    (hp : edits'.Perm edits) :
    applyEdits src edits =
      spliceDesc src ((sortDesc edits).map (offsetsOf (splitlinesKeep src))) ∧
    applyEdits src edits' = applyEdits src edits := by
  have hperm : (sortDesc edits).Perm edits := sortDesc_perm edits
  have hv' : ∀ e ∈ sortDesc edits, validPos (splitlinesKeep src) (Edit.start e) ∧
      validPos (splitlinesKeep src) (Edit.stop e) ∧
      posLE (Edit.start e) (Edit.stop e) :=
    fun e he => hv e (hperm.subset he)
  have hd' : (sortDesc edits).Pairwise
      (fun a b => posLE (Edit.stop a) (Edit.start b) ∨
        posLE (Edit.stop b) (Edit.start a)) :=
    hd.perm hperm.symm (fun h => Or.symm h)
  have hb' : ∀ e ∈ sortDesc edits,
      toOffset (splitlinesKeep src) (Edit.stop e).1 (Edit.stop e).2 ≤ src.length := by
    intro e he
    have h := toOffset_le_sum (splitlinesKeep src) (Edit.stop e) (hv' e he).2.1
    rwa [splitlinesKeep_sum] at h
  have hdesc : DescOk src.length ((sortDesc edits).map (offsetsOf (splitlinesKeep src))) :=
    descOk_of_sorted (splitlinesKeep src) (sortDesc edits) src.length hv'
      (sortDesc_sorted edits) hd' hb'
  constructor
  · rw [applyEdits_eq_oapply src edits hne]
    exact oapplyDesc_eq_splice _ src hdesc
  · have hne' : edits' ≠ [] := by
      intro h
      subst h
      exact hne hp.nil_eq.symm
    have hsorteq : sortDesc edits' = sortDesc edits := by
      apply sorted_perm_eq
      · exact (sortDesc_perm edits').trans (hp.trans hperm.symm)
      · exact sortDesc_sorted edits'
      · exact sortDesc_sorted edits
      · have hmp : ((sortDesc edits').map editKey).Perm (edits.map editKey) :=
          ((sortDesc_perm edits').trans hp).map editKey
        exact hmp.nodup_iff.mpr hnd
    unfold applyEdits
    rw [if_neg (by simpa [List.isEmpty_iff] using hne'),
      if_neg (by simpa [List.isEmpty_iff] using hne), hsorteq]

/-- A closed instance of `apply_edits_descending_splice`: two valid,
non-overlapping, distinct-key edits on a two-line document; the fold equals
the simultaneous splice and the reversed input order gives the same
result. -/
theorem apply_edits_descending_splice_witness :
    applyEdits ("ab\ncd\n".data) [wEdit1, wEdit2] =
      spliceDesc ("ab\ncd\n".data)
        ((sortDesc [wEdit1, wEdit2]).map
          (offsetsOf (splitlinesKeep ("ab\ncd\n".data)))) ∧
    applyEdits ("ab\ncd\n".data) [wEdit2, wEdit1] =
      applyEdits ("ab\ncd\n".data) [wEdit1, wEdit2] :=
  apply_edits_descending_splice ("ab\ncd\n".data) [wEdit1, wEdit2]
    [wEdit2, wEdit1] (by decide) (by decide) (by decide) (by decide) (by decide)

end Hdae
